import Mathlib

/-!
# envsugar: environment helpers

A shallow embedding of `envsugar.go` (package `envsugar`) together with the
parts of the Go standard library it calls (`strings`, `strconv`, `fmt`, `os`).

Modelling conventions
* A Go `string` is a Lean `String`, read as its sequence of Unicode code
  points: the model covers the strings that are valid UTF-8.
* Go's `int` is the 64-bit `int` of the common platforms; values are `Int`
  with the wrap-around written out where the library computes on machine words.
* The Unicode upper-case table of Go's `unicode` package (the mapping of the
  runes above `MaxASCII`) is not part of the repository: it is the parameter
  `upperTable` of `ToUpper` and of everything that normalises a key.
* The process environment is an explicit table inside `World`; the diagnostic
  output of `log` and `fmt.Println` is an explicit trace inside `World`.
-/

/-- Go `string`. -/
abbrev GoString := String

/-- Go `int` (64-bit). -/
abbrev GoInt := Int

/-! ## package unicode / strings -/

/-- The `unicode.IsSpace` predicate: the Latin-1 cases of its `switch` and the
`White_Space` ranges above Latin-1. -/
def isSpace (r : Char) : Bool :=
  let n := r.toNat
  if n ≤ 0xFF then
    n = 0x09 || n = 0x0A || n = 0x0B || n = 0x0C || n = 0x0D || n = 0x20
      || n = 0x85 || n = 0xA0
  else
    n = 0x1680 || (0x2000 ≤ n && n ≤ 0x200A) || n = 0x2028 || n = 0x2029
      || n = 0x202F || n = 0x205F || n = 0x3000

/-- The scan of `strings.TrimSpace` on the code points: drop the white space
at the start, then the white space at the end. -/
def trimSpaceRunes (s : List Char) : List Char :=
  ((s.dropWhile isSpace).reverse.dropWhile isSpace).reverse

/-- The Go function `strings.TrimSpace`. -/
def TrimSpace (s : GoString) : GoString := ⟨trimSpaceRunes s.data⟩

/-- The Go function `unicode.ToUpper`: the ASCII branch is the one of the library
(`'a'..'z'` move down by `'a' - 'A'`), the runes above `MaxASCII` go through
the case table `upperTable`. -/
def toUpperRune (upperTable : Char → Char) (r : Char) : Char :=
  if r.toNat ≤ 0x7F then
    if 0x61 ≤ r.toNat ∧ r.toNat ≤ 0x7A then Char.ofNat (r.toNat - 0x20) else r
  else upperTable r

/-- The case table of Go's `unicode.ToUpper` on the Latin-1 supplement, the runes
`U+0080..U+00FF`: `µ` goes to `U+039C`, `à..ö` and `ø..þ` move down by 32, `ÿ`
goes to `U+0178`, every other rune of the block, `ß` among them, has no
upper-case form of its own and stays. The runes above `U+00FF` are left as
they are: the table is Go's only up to `U+00FF`. -/
def latin1UpperTable (r : Char) : Char :=
  if r.toNat = 0xB5 then Char.ofNat 0x39C
  else if (0xE0 ≤ r.toNat ∧ r.toNat ≤ 0xF6) ∨ (0xF8 ≤ r.toNat ∧ r.toNat ≤ 0xFE) then
    Char.ofNat (r.toNat - 0x20)
  else if r.toNat = 0xFF then Char.ofNat 0x178
  else r

/-- The Go function `unicode.IsLower` on the runes up to `MaxLatin1`: the entries
`pLl` of its table `properties`, that is `a..z`, `µ`, `ß..ö` and `ø..ÿ`. Above
Latin-1 the answer of the library comes from a table that is not modelled;
the function says `false` there. -/
def isLowerLatin1 (r : Char) : Bool :=
  (0x61 ≤ r.toNat && r.toNat ≤ 0x7A) || r.toNat = 0xB5
    || (0xDF ≤ r.toNat && r.toNat ≤ 0xF6) || (0xF8 ≤ r.toNat && r.toNat ≤ 0xFF)

/-- The Go function `strings.ToUpper`: every rune mapped by `unicode.ToUpper`. -/
def ToUpper (upperTable : Char → Char) (s : GoString) : GoString :=
  ⟨s.data.map (toUpperRune upperTable)⟩

/-! ## package fmt -/

/-- The Go function `fmt.Sprintf` restricted to the verb `%s` with string operands;
a verb without operand prints `%!s(MISSING)` as the library does. -/
def sprintfRunes : List Char → List GoString → List Char
  | '%' :: 's' :: rest, a :: args => a.data ++ sprintfRunes rest args
  | '%' :: 's' :: rest, [] => "%!s(MISSING)".data ++ sprintfRunes rest []
  | c :: rest, args => c :: sprintfRunes rest args
  | [], _ => []

/-- The Go function `fmt.Sprintf` (verb `%s` only). -/
def Sprintf (format : GoString) (args : List GoString) : GoString :=
  ⟨sprintfRunes format.data args⟩

/-- The position of the first instance of `sep` in `s` (`strings.Index`), counted
in code points; `none` stands for `-1`. -/
def indexRunes (sep : List Char) : List Char → Option Nat
  | [] => if sep = [] then some 0 else none
  | c :: cs =>
    if sep.isPrefixOf (c :: cs) then some 0
    else (indexRunes sep cs).map (fun m => m + 1)

/-- The loop of `strings.genSplit` with `sepSave = 0`: cut at the first instance
of `sep`, at most `n` times, and end with what is left. -/
def genSplitLoop (sep : List Char) : Nat → List Char → List (List Char)
  | 0, s => [s]
  | n + 1, s =>
    match indexRunes sep s with
    | none => [s]
    | some m => s.take m :: genSplitLoop sep n (s.drop (m + sep.length))

/-- The Go function `strings.Split(s, sep)`, that is `genSplit(s, sep, 0, -1)`, on
code points. With an empty separator the string is exploded into its code
points. Otherwise the loop runs `Count(s, sep)` times in the library; its bound
here is `len(s)`, which is not smaller, the loop ending by itself at the first
`Index` that finds nothing. -/
def splitRunes (s sep : List Char) : List (List Char) :=
  if sep = [] then s.map (fun c => [c])
  else genSplitLoop sep s.length s

/-- The Go function `strings.Split`. -/
def Split (s sep : GoString) : List GoString :=
  (splitRunes s.data sep.data).map String.mk

/-- The Go function `strings.Join` on code points: the elements with `sep` between
them. -/
def joinRunes (sep : List Char) : List (List Char) → List Char
  | [] => []
  | [x] => x
  | x :: y :: ys => x ++ sep ++ joinRunes sep (y :: ys)

/-- The Go function `strings.Join`. -/
def Join (elems : List GoString) (sep : GoString) : GoString :=
  ⟨joinRunes sep.data (elems.map String.data)⟩

/-- The Go function `strings.Contains` on code points, `Index(s, substr) >= 0`. -/
def containsRunes (s substr : List Char) : Bool := (indexRunes substr s).isSome

/-- The Go function `strings.Contains`. -/
def Contains (s substr : GoString) : Bool := containsRunes s.data substr.data

/-! ## package strconv -/

/-- The errors of package `strconv`: the field `Err` of a `*NumError`. -/
inductive NumError where
  | ErrSyntax
  | ErrRange
  deriving DecidableEq, Repr

/-- The number of bytes of the UTF-8 encoding of a rune. -/
def runeLen (c : Char) : Nat :=
  if c.toNat < 0x80 then 1 else if c.toNat < 0x800 then 2
  else if c.toNat < 0x10000 then 3 else 4

/-- The Go expression `len(s)`: the number of bytes of the string. -/
def byteLen (s : List Char) : Nat := (s.map runeLen).sum

/-- The conversion to `int64`: the value modulo `2^64` in `[-2^63, 2^63)`. -/
def toInt64 (x : Int) : Int := (x + 2 ^ 63) % 2 ^ 64 - 2 ^ 63

/-- The largest `uint64`, `maxVal` of `ParseUint` with `bitSize = 64`. -/
def maxUint64 : Nat := 2 ^ 64 - 1

/-- The loop of `strconv.ParseUint(s, 10, 64)` over the runes left, `n` being the
value read so far. A rune above ASCII is made of bytes that are neither digits
nor letters. -/
def parseUintLoop : List Char → Nat → Nat × Option NumError
  | [], n => (n, none)
  | c :: cs, n =>
    let digit : Option Nat :=
      if 0x30 ≤ c.toNat ∧ c.toNat ≤ 0x39 then some (c.toNat - 0x30)
      else if c.toNat < 0x80 ∧ 0x61 ≤ (c.toNat ||| 0x20) ∧ (c.toNat ||| 0x20) ≤ 0x7A then
        some ((c.toNat ||| 0x20) - 0x61 + 10)
      else none
    match digit with
    | none => (0, some .ErrSyntax)
    | some d =>
      if d ≥ 10 then (0, some .ErrSyntax)
      else if n ≥ maxUint64 / 10 + 1 then (maxUint64, some .ErrRange)
      else
        let n10 := (n * 10) % 2 ^ 64
        let n1 := (n10 + d) % 2 ^ 64
        if n1 < n10 ∨ n1 > maxUint64 then (maxUint64, some .ErrRange)
        else parseUintLoop cs n1

/-- The Go call `strconv.ParseUint(s, 10, 64)`: value and error. -/
def ParseUint (s : List Char) : Nat × Option NumError :=
  if s = [] then (0, some .ErrSyntax) else parseUintLoop s 0

/-- The part of `strconv.ParseInt(s, 10, 0)` that follows the sign: `ParseUint` on
the rest of the text, then the test of the signed 64-bit range. On a range
error the value is the bound of the range that was passed. -/
def parseIntTail (neg : Bool) (body : List Char) : Int × Option NumError :=
  let r := ParseUint body
  if r.2 = some .ErrSyntax then (0, some .ErrSyntax)
  else
    let cutoff : Nat := 2 ^ 63
    if neg = false ∧ r.1 ≥ cutoff then (toInt64 ((cutoff : Int) - 1), some .ErrRange)
    else if neg = true ∧ r.1 > cutoff then (toInt64 (-(cutoff : Int)), some .ErrRange)
    else
      let n := toInt64 (r.1 : Int)
      (if neg then toInt64 (-n) else n, none)

/-- The Go call `strconv.ParseInt(s, 10, 0)` with a 64-bit `int`: value and error. -/
def ParseInt (s : List Char) : Int × Option NumError :=
  match s with
  | [] => (0, some .ErrSyntax)
  | c :: cs => parseIntTail (c = '-') (if c = '+' ∨ c = '-' then cs else c :: cs)

/-- The loop of the fast path of `strconv.Atoi`: `n = n*10 + int(ch)` on the
64-bit `int`. -/
def atoiFastLoop : List Char → Int → Int × Option NumError
  | [], n => (n, none)
  | c :: cs, n =>
    if 0x30 ≤ c.toNat ∧ c.toNat ≤ 0x39 then
      atoiFastLoop cs (toInt64 (toInt64 (n * 10) + ((c.toNat - 0x30 : Nat) : Int)))
    else (0, some .ErrSyntax)

/-- The Go function `strconv.Atoi` with a 64-bit `int`: the fast path for strings of
1 to 18 bytes, `ParseInt(s, 10, 0)` otherwise. Value and error: on an error the
value is the one `ParseInt` returns with it. -/
def atoiRunes (s : List Char) : Int × Option NumError :=
  if 0 < byteLen s ∧ byteLen s < 19 then
    match s with
    | [] => (0, some .ErrSyntax)
    | c :: cs =>
      if c = '-' ∨ c = '+' then
        if cs = [] then (0, some .ErrSyntax)
        else
          let r := atoiFastLoop cs 0
          if r.2 ≠ none then r
          else (if c = '-' then toInt64 (-r.1) else r.1, none)
      else atoiFastLoop (c :: cs) 0
  else ParseInt s

/-- The Go function `strconv.Atoi`. -/
def Atoi (s : GoString) : GoInt × Option NumError := atoiRunes s.data

/-- The Go function `strconv.ParseBool`: the two lists of its `switch`, a syntax error
for any other text. -/
def ParseBool (str : GoString) : Bool × Option NumError :=
  if str = "1" ∨ str = "t" ∨ str = "T" ∨ str = "true" ∨ str = "TRUE" ∨ str = "True" then
    (true, none)
  else if str = "0" ∨ str = "f" ∨ str = "F" ∨ str = "false" ∨ str = "FALSE"
      ∨ str = "False" then
    (false, none)
  else (false, some .ErrSyntax)

/-! ### Reference reading of a base-10 numeral -/

/-- A decimal digit `0..9`. -/
def isDecDigit (c : Char) : Bool := 0x30 ≤ c.toNat && c.toNat ≤ 0x39

/-- The number denoted by a run of decimal digits read after the value `n`. -/
def digitsFrom (n : Nat) (ds : List Char) : Nat :=
  ds.foldl (fun n c => n * 10 + (c.toNat - 0x30)) n

/-- The number denoted by a run of decimal digits. -/
def digitsNat (ds : List Char) : Nat := digitsFrom 0 ds

/-- The text after the optional sign. -/
def numeralBody : List Char → List Char
  | [] => []
  | c :: cs => if c = '+' ∨ c = '-' then cs else c :: cs

/-- Whether the text starts with a minus sign. -/
def numeralNeg : List Char → Bool
  | [] => false
  | c :: _ => c = '-'

/-- A base-10 integer numeral: an optional sign followed by one or more decimal
digits. -/
def isNumeral (s : GoString) : Bool :=
  numeralBody s.data ≠ [] && (numeralBody s.data).all isDecDigit

/-- The integer a base-10 numeral denotes. -/
def numeralValue (s : GoString) : Int :=
  if numeralNeg s.data then -(digitsNat (numeralBody s.data) : Int)
  else (digitsNat (numeralBody s.data) : Int)

/-- The number denoted by the decimal digits that follow the optional sign, up
to the first rune that is not a digit. -/
def leadingDigitsNat (s : GoString) : Nat :=
  digitsNat ((numeralBody s.data).takeWhile isDecDigit)

/-- Reference outcome of reading the text `body` that follows an optional sign
as a signed 64-bit integer. A numeral (one or more digits, nothing else) gives
its value when that is in range and the bound of the range it passes
otherwise; any other text is a syntax error with value 0, unless its leading
digits alone already pass the unsigned 64-bit range, which is reported as a
range error before the rest is looked at. -/
def readDecimal (neg : Bool) (body : List Char) : Int × Option NumError :=
  if digitsNat (body.takeWhile isDecDigit) > maxUint64 then
    (if neg then -(2 ^ 63) else 2 ^ 63 - 1, some .ErrRange)
  else if body ≠ [] ∧ body.dropWhile isDecDigit = [] then
    if neg then
      if digitsNat body ≤ 2 ^ 63 then (-(digitsNat body : Int), none)
      else (-(2 ^ 63), some .ErrRange)
    else
      if digitsNat body < 2 ^ 63 then ((digitsNat body : Int), none)
      else (2 ^ 63 - 1, some .ErrRange)
  else (0, some .ErrSyntax)

/-! ## package os: the environment table -/

/-- The environment table: the value bound to each name, if any. -/
abbrev Env := GoString → Option GoString

/-- Errors returned by the functions of this file. -/
inductive GoError where
  /-- An error made by `fmt.Errorf` or `errors.New`, carrying its message. -/
  | errorString (msg : GoString)
  /-- The `os.SyscallError` of a failed `setenv` (`EINVAL`). -/
  | setenvEINVAL
  deriving DecidableEq, Repr

/-- The method `Error()` of an error. -/
def GoError.Error : GoError → GoString
  | .errorString msg => msg
  | .setenvEINVAL => "setenv: invalid argument"

/-- The Go function `os.Getenv`: the value of the variable, the empty string when
the name is empty or the variable is not present. -/
def Getenv (env : Env) (key : GoString) : GoString :=
  if key = "" then "" else
    match env key with
    | some v => v
    | none => ""

/-- The Go function `os.Setenv` (`syscall.Setenv` on Unix): refuses an empty name, a
name holding `=` or NUL and a value holding NUL; otherwise binds the name. -/
def Setenv (env : Env) (key value : GoString) : Except GoError Env :=
  if key = "" then .error .setenvEINVAL
  else if key.data.any (fun c => c = '=' || c.toNat = 0) then .error .setenvEINVAL
  else if value.data.any (fun c => c.toNat = 0) then .error .setenvEINVAL
  else .ok (fun k => if k = key then some value else env k)

/-- The names and values `os.Setenv` accepts: the three tests of `Setenv`. -/
def setenvAccepts (key value : GoString) : Bool :=
  key ≠ "" && !key.data.any (fun c => c = '=' || c.toNat = 0)
    && !value.data.any (fun c => c.toNat = 0)

/-- One line of diagnostic output. -/
inductive Output where
  /-- A line written by the standard logger (`log.Printf`, `log.Println`). -/
  | log (line : GoString)
  /-- A line written by `fmt.Println`. -/
  | stdout (line : GoString)
  deriving DecidableEq, Repr

/-- What the functions of the package act on: the environment table and the
output written so far. -/
structure World where
  env : Env
  out : List Output

/-- Append one line of output. -/
def World.emit (w : World) (o : Output) : World := { w with out := w.out ++ [o] }

namespace envsugar

/-- The source function `keyNormalize`. -/
def keyNormalize (upperTable : Char → Char) (pfx key : GoString) : GoString :=
  let pfx := TrimSpace pfx
  let key := TrimSpace key
  let key := if pfx ≠ "" then Sprintf "%s_%s" [pfx, key] else key
  ToUpper upperTable key

/-- The source function `Check`: verifies that an environment variable is available
and valued. Returns the error (`none` for `nil`) and the world it leaves. -/
def Check (upperTable : Char → Char) (pfx key defaultValue : GoString)
    (required logPrint : Bool) (w : World) : Option GoError × World :=
  let key := keyNormalize upperTable pfx key
  let w := if logPrint then w.emit (.log (Sprintf "checking env.var %s ..." [key])) else w
  if Getenv w.env key = "" then
    if defaultValue ≠ "" then
      match Setenv w.env key defaultValue with
      | .error err => (some err, w.emit (.log err.Error))
      | .ok env' =>
        let w := { w with env := env' }
        let w := if logPrint then w.emit (.log "set with default value") else w
        (none, w)
    else if Getenv w.env key = "" ∧ required = true then
      let w := if logPrint then w.emit (.stdout "required but not set") else w
      (some (.errorString "required but not set"), w)
    else
      let w := if logPrint then w.emit (.stdout "ok!") else w
      (none, w)
  else
    let w := if logPrint then w.emit (.stdout "ok!") else w
    (none, w)

/-- The source type `Directives`: rules for variable evaluation. -/
structure Directives where
  Name : GoString
  Required : Bool
  DefaultValue : GoString
  deriving DecidableEq, Repr

/-- The source function `CheckMany`: runs `Check` on each directive in order and
returns at the first error. -/
def CheckMany (upperTable : Char → Char) (pfx : GoString) :
    List Directives → Bool → World → Option GoError × World
  | [], _, w => (none, w)
  | d :: ds, logPrint, w =>
    match Check upperTable pfx d.Name d.DefaultValue d.Required logPrint w with
    | (some err, w') => (some err, w')
    | (none, w') => CheckMany upperTable pfx ds logPrint w'

/-- The source function `String`: the value of the variable as a string. -/
def String (upperTable : Char → Char) (pfx key defaultValue : GoString) (w : World) :
    GoString :=
  let key := keyNormalize upperTable pfx key
  if Getenv w.env key ≠ "" then Getenv w.env key else defaultValue

/-- The loop of `IntS`: `is[i], _ = strconv.Atoi(x)` for the elements `x` of `a`
from index `i` on. -/
def intSLoop : List GoString → Nat → List GoInt → List GoInt
  | [], _, is => is
  | x :: xs, i, is => intSLoop xs (i + 1) (is.set i (Atoi x).1)

/-- The source function `StrS`: the value of the variable as a list of strings. -/
def StrS (upperTable : Char → Char) (pfx key separator : GoString)
    (defaultValue : List GoString) (w : World) : List GoString :=
  let key := keyNormalize upperTable pfx key
  if Getenv w.env key ≠ "" then Split (Getenv w.env key) separator
  else if defaultValue.length > 0 then defaultValue
  else []

/-- The source function `IntS`: the value of the variable as a list of integers. -/
def IntS (upperTable : Char → Char) (pfx key separator : GoString)
    (defaultValue : List GoInt) (w : World) : List GoInt :=
  let key := keyNormalize upperTable pfx key
  if Getenv w.env key ≠ "" then
    let a := Split (Getenv w.env key) separator
    let is := List.replicate a.length (0 : GoInt)
    intSLoop a 0 is
  else if defaultValue.length > 0 then defaultValue
  else []

/-- The source function `Int`: the value of the variable as an `int`. -/
def Int (upperTable : Char → Char) (pfx key : GoString) (defaultValue : GoInt) (w : World) :
    GoInt :=
  let key := keyNormalize upperTable pfx key
  if Getenv w.env key ≠ "" then
    if (Atoi (Getenv w.env key)).2 = none then (Atoi (Getenv w.env key)).1
    else defaultValue
  else defaultValue

/-- The source function `Int64`: the value of the variable as an `int64`, read by
`strconv.ParseInt(s, 10, 64)`. -/
def Int64 (upperTable : Char → Char) (pfx key : GoString) (defaultValue : GoInt)
    (w : World) : GoInt :=
  let key := keyNormalize upperTable pfx key
  if Getenv w.env key ≠ "" then
    if (ParseInt (Getenv w.env key).data).2 = none then (ParseInt (Getenv w.env key).data).1
    else defaultValue
  else defaultValue

/-- The source function `Float`: the value of the variable as a `float64`. The type
`F` of the floating-point numbers and the function `strconv.ParseFloat(s, 64)`
are parameters. -/
def Float {F : Type} (parseFloat : GoString → F × Option NumError)
    (upperTable : Char → Char) (pfx key : GoString) (defaultValue : F) (w : World) : F :=
  let key := keyNormalize upperTable pfx key
  if Getenv w.env key ≠ "" then
    if (parseFloat (Getenv w.env key)).2 = none then (parseFloat (Getenv w.env key)).1
    else defaultValue
  else defaultValue

/-- The source function `Boolloat`: the value of the variable as a boolean. -/
def Boolloat (upperTable : Char → Char) (pfx key : GoString) (defaultValue : Bool)
    (w : World) : Bool :=
  let key := keyNormalize upperTable pfx key
  if Getenv w.env key ≠ "" then
    if (ParseBool (Getenv w.env key)).2 = none then (ParseBool (Getenv w.env key)).1
    else defaultValue
  else defaultValue

end envsugar

/-- Reference definition of the normalized key, after the specification: trim the
surrounding white space of both inputs; join them as `PREFIX_KEY` when the
trimmed prefix is not empty, take the key alone otherwise; upper-case the
result. -/
def keyNormalizeSpec (upperTable : Char → Char) (pfx key : GoString) : GoString :=
  let p := TrimSpace pfx
  let k := TrimSpace key
  if p = "" then ToUpper upperTable k else ToUpper upperTable (p ++ "_" ++ k)

/-- The left-to-right fold of `Check` over a list of directives: the world left
by running `Check` on each directive in order, whatever it returns. -/
def checkFold (upperTable : Char → Char) (pfx : GoString) (logPrint : Bool)
    (ds : List envsugar.Directives) (w : World) : World :=
  ds.foldl
    (fun w d => (envsugar.Check upperTable pfx d.Name d.DefaultValue d.Required logPrint w).2) w

/-- The outcome of `Check` on one directive. -/
def checkDirective (upperTable : Char → Char) (pfx : GoString) (logPrint : Bool)
    (d : envsugar.Directives) (w : World) : Option GoError × World :=
  envsugar.Check upperTable pfx d.Name d.DefaultValue d.Required logPrint w

/-! ## The getters as calls on the world

The same source functions once more, with the world threaded through every
call of `os.Getenv` and with the run-time panic of an index out of range made
explicit. -/

/-- The outcome of a call: `none` when the call panics, otherwise the value
returned and the world the call leaves. -/
abbrev Outcome (α : Type) := Option (α × World)

/-- A call of `os.Getenv`: the value read and the world, which a read leaves as it
is. -/
def callGetenv (key : GoString) (w : World) : GoString × World := (Getenv w.env key, w)

/-- The Go assignment `is[i] = v`: a run-time panic when `i` is out of range. -/
def assignIndex (is : List GoInt) (i : Nat) (v : GoInt) : Option (List GoInt) :=
  if i < is.length then some (is.set i v) else none

/-- The loop of `IntS` with the index checked at every assignment. -/
def callIntSLoop : List GoString → Nat → List GoInt → Option (List GoInt)
  | [], _, is => some is
  | x :: xs, i, is =>
    match assignIndex is i (Atoi x).1 with
    | none => none
    | some is1 => callIntSLoop xs (i + 1) is1

/-- The source function `String` as a call on the world. -/
def callString (upperTable : Char → Char) (pfx key defaultValue : GoString) (w : World) :
    Outcome GoString :=
  let key := envsugar.keyNormalize upperTable pfx key
  let r1 := callGetenv key w
  if r1.1 ≠ "" then
    let r2 := callGetenv key r1.2
    some (r2.1, r2.2)
  else some (defaultValue, r1.2)

/-- The source function `StrS` as a call on the world. -/
def callStrS (upperTable : Char → Char) (pfx key separator : GoString)
    (defaultValue : List GoString) (w : World) : Outcome (List GoString) :=
  let key := envsugar.keyNormalize upperTable pfx key
  let r1 := callGetenv key w
  if r1.1 ≠ "" then
    let r2 := callGetenv key r1.2
    some (Split r2.1 separator, r2.2)
  else if defaultValue.length > 0 then some (defaultValue, r1.2)
  else some ([], r1.2)

/-- The source function `Int` as a call on the world. -/
def callInt (upperTable : Char → Char) (pfx key : GoString) (defaultValue : GoInt)
    (w : World) : Outcome GoInt :=
  let key := envsugar.keyNormalize upperTable pfx key
  let r1 := callGetenv key w
  if r1.1 ≠ "" then
    let r2 := callGetenv key r1.2
    if (Atoi r2.1).2 = none then some ((Atoi r2.1).1, r2.2)
    else some (defaultValue, r2.2)
  else some (defaultValue, r1.2)

/-- The source function `Int64` as a call on the world. -/
def callInt64 (upperTable : Char → Char) (pfx key : GoString) (defaultValue : GoInt)
    (w : World) : Outcome GoInt :=
  let key := envsugar.keyNormalize upperTable pfx key
  let r1 := callGetenv key w
  if r1.1 ≠ "" then
    let r2 := callGetenv key r1.2
    if (ParseInt r2.1.data).2 = none then some ((ParseInt r2.1.data).1, r2.2)
    else some (defaultValue, r2.2)
  else some (defaultValue, r1.2)

/-- The source function `IntS` as a call on the world: the slice is made with the
length of the split value and every assignment `is[i]` is checked. -/
def callIntS (upperTable : Char → Char) (pfx key separator : GoString)
    (defaultValue : List GoInt) (w : World) : Outcome (List GoInt) :=
  let key := envsugar.keyNormalize upperTable pfx key
  let r1 := callGetenv key w
  if r1.1 ≠ "" then
    let r2 := callGetenv key r1.2
    let a := Split r2.1 separator
    let is := List.replicate a.length (0 : GoInt)
    match callIntSLoop a 0 is with
    | none => none
    | some is1 => some (is1, r2.2)
  else if defaultValue.length > 0 then some (defaultValue, r1.2)
  else some ([], r1.2)

/-- The source function `Float` as a call on the world. -/
def callFloat {F : Type} (parseFloat : GoString → F × Option NumError)
    (upperTable : Char → Char) (pfx key : GoString) (defaultValue : F) (w : World) :
    Outcome F :=
  let key := envsugar.keyNormalize upperTable pfx key
  let r1 := callGetenv key w
  if r1.1 ≠ "" then
    let r2 := callGetenv key r1.2
    if (parseFloat r2.1).2 = none then some ((parseFloat r2.1).1, r2.2)
    else some (defaultValue, r2.2)
  else some (defaultValue, r1.2)

/-- The source function `Boolloat` as a call on the world. -/
def callBoolloat (upperTable : Char → Char) (pfx key : GoString) (defaultValue : Bool)
    (w : World) : Outcome Bool :=
  let key := envsugar.keyNormalize upperTable pfx key
  let r1 := callGetenv key w
  if r1.1 ≠ "" then
    let r2 := callGetenv key r1.2
    if (ParseBool r2.1).2 = none then some ((ParseBool r2.1).1, r2.2)
    else some (defaultValue, r2.2)
  else some (defaultValue, r1.2)

/-- The world with no variable set and nothing written. -/
def emptyWorld : World := ⟨fun _ => none, []⟩

/-- The world in which exactly `key` is set, to `value`. -/
def singleWorld (key value : GoString) : World :=
  ⟨fun k => if k = key then some value else none, []⟩

/-! ## Supporting lemmas -/

open envsugar (keyNormalize Check CheckMany Directives StrS IntS intSLoop)

@[simp] theorem World.emit_env (w : World) (o : Output) : (w.emit o).env = w.env := rfl

@[simp] theorem World.ite_emit_env (b : Bool) (w : World) (o : Output) :
    (if b = true then w.emit o else w).env = w.env := by
  cases b <;> rfl

/-- A lookup gives the empty string exactly when the name is empty, unbound, or
bound to the empty string. -/
theorem Getenv_eq_empty_iff (env : Env) (key : GoString) :
    Getenv env key = "" ↔ key = "" ∨ env key = none ∨ env key = some "" := by
  unfold Getenv
  by_cases hk : key = ""
  · simp [hk]
  · cases h : env key <;> simp [hk]

theorem Getenv_of_unset_or_empty (env : Env) (key : GoString)
    (h : env key = none ∨ env key = some "") : Getenv env key = "" :=
  (Getenv_eq_empty_iff env key).2 (Or.inr h)

/-- A non-empty lookup is the bound value. -/
theorem Getenv_ne_empty (env : Env) (key : GoString) (h : Getenv env key ≠ "") :
    key ≠ "" ∧ env key = some (Getenv env key) := by
  unfold Getenv at h ⊢
  by_cases hk : key = ""
  · simp [hk] at h
  · cases h2 : env key
    · simp [hk, h2] at h
    · simp [hk]

/-- When it succeeds, `Setenv` binds exactly the given name. -/
theorem Setenv_ok (env env' : Env) (key value : GoString)
    (h : Setenv env key value = .ok env') :
    key ≠ "" ∧ env' = (fun k => if k = key then some value else env k) := by
  unfold Setenv at h
  split at h
  · simp at h
  · split at h
    · simp at h
    · split at h
      · simp at h
      · rename_i hk _ _
        refine ⟨hk, ?_⟩
        injection h with h
        exact h.symm

/-- `Setenv` fails only with `EINVAL`. -/
theorem Setenv_error (env : Env) (key value : GoString) (err : GoError)
    (h : Setenv env key value = .error err) : err = .setenvEINVAL := by
  unfold Setenv at h
  split at h
  · injection h with h; exact h.symm
  · split at h
    · injection h with h; exact h.symm
    · split at h
      · injection h with h; exact h.symm
      · simp at h

theorem Setenv_of_accepts (env : Env) (key value : GoString)
    (h : setenvAccepts key value = true) :
    Setenv env key value = .ok (fun k => if k = key then some value else env k) := by
  unfold setenvAccepts at h
  simp only [Bool.and_eq_true, Bool.not_eq_true', decide_eq_true_eq] at h
  obtain ⟨⟨h1, h2⟩, h3⟩ := h
  unfold Setenv
  simp [h1, h2, h3]

theorem Setenv_of_not_accepts (env : Env) (key value : GoString)
    (h : setenvAccepts key value = false) :
    Setenv env key value = .error .setenvEINVAL := by
  unfold Setenv
  by_cases h1 : key = ""
  · simp [h1]
  · by_cases h2 : key.data.any (fun c => c = '=' || c.toNat = 0) = true
    · simp [h1, h2]
    · by_cases h3 : value.data.any (fun c => c.toNat = 0) = true
      · simp [h1, h2, h3]
      · exfalso
        unfold setenvAccepts at h
        simp only [Bool.not_eq_true] at h2 h3
        simp [h1, h2, h3] at h

/-- The variable is present: `Check` succeeds and the table is untouched. -/
theorem Check_present (t : Char → Char) (pfx key dv : GoString) (req lp : Bool) (w : World)
    (h : Getenv w.env (keyNormalize t pfx key) ≠ "") :
    (Check t pfx key dv req lp w).1 = none ∧ (Check t pfx key dv req lp w).2.env = w.env := by
  unfold Check
  simp [h]

/-- The variable is absent and there is no default: `Check` fails exactly when the
variable is required, and the table is untouched. -/
theorem Check_absent_nodefault (t : Char → Char) (pfx key : GoString) (req lp : Bool)
    (w : World) (h : Getenv w.env (keyNormalize t pfx key) = "") :
    (Check t pfx key "" req lp w).1
        = (if req = true then some (.errorString "required but not set") else none)
      ∧ (Check t pfx key "" req lp w).2.env = w.env := by
  unfold Check
  cases req <;> simp [h]

/-- The variable is absent and there is a default: `Check` does what `Setenv` does. -/
theorem Check_absent_default (t : Char → Char) (pfx key dv : GoString) (req lp : Bool)
    (w : World) (h : Getenv w.env (keyNormalize t pfx key) = "") (hd : dv ≠ "") :
    (setenvAccepts (keyNormalize t pfx key) dv = true →
        (Check t pfx key dv req lp w).1 = none
        ∧ (Check t pfx key dv req lp w).2.env
            = (fun k => if k = keyNormalize t pfx key then some dv else w.env k))
      ∧ (setenvAccepts (keyNormalize t pfx key) dv = false →
        (Check t pfx key dv req lp w).1 = some .setenvEINVAL
        ∧ (Check t pfx key dv req lp w).2.env = w.env) := by
  constructor
  · intro ha
    unfold Check
    simp [h, hd, Setenv_of_accepts _ _ _ ha]
  · intro ha
    unfold Check
    simp [h, hd, Setenv_of_not_accepts _ _ _ ha]

/-- `Check` touches no name other than the normalized key. -/
theorem Check_frame (t : Char → Char) (pfx key dv : GoString) (req lp : Bool) (w : World)
    (k : GoString) (hk : k ≠ keyNormalize t pfx key) :
    (Check t pfx key dv req lp w).2.env k = w.env k := by
  by_cases h : Getenv w.env (keyNormalize t pfx key) = ""
  · by_cases hd : dv = ""
    · subst hd
      rw [(Check_absent_nodefault t pfx key req lp w h).2]
    · cases ha : setenvAccepts (keyNormalize t pfx key) dv
      · rw [((Check_absent_default t pfx key dv req lp w h hd).2 ha).2]
      · rw [((Check_absent_default t pfx key dv req lp w h hd).1 ha).2]
        simp [hk]
  · rw [(Check_present t pfx key dv req lp w h).2]

/-- A variable that has a value keeps it through any `Check`. -/
theorem Check_keeps_value (t : Char → Char) (pfx key dv : GoString) (req lp : Bool)
    (w : World) (k : GoString) (hv : Getenv w.env k ≠ "") :
    Getenv (Check t pfx key dv req lp w).2.env k = Getenv w.env k := by
  by_cases hk : k = keyNormalize t pfx key
  · subst hk
    rw [(Check_present t pfx key dv req lp w hv).2]
  · unfold Getenv
    rw [Check_frame t pfx key dv req lp w k hk]

/-- A variable that has a value keeps it through any `CheckMany`. -/
theorem CheckMany_keeps_value (t : Char → Char) (pfx : GoString) (ds : List Directives)
    (lp : Bool) (w : World) (k : GoString) (hv : Getenv w.env k ≠ "") :
    Getenv (CheckMany t pfx ds lp w).2.env k = Getenv w.env k := by
  induction ds generalizing w with
  | nil => rfl
  | cons d ds ih =>
    have hstep := Check_keeps_value t pfx d.Name d.DefaultValue d.Required lp w k hv
    unfold CheckMany
    rcases hc : Check t pfx d.Name d.DefaultValue d.Required lp w with ⟨e, w'⟩
    rw [hc] at hstep
    cases e with
    | some err => exact hstep
    | none =>
      simp only
      rw [ih w' (by rw [hstep]; exact hv)]
      exact hstep

/-- After a successful `Check` of a required variable the normalized key has a
value. -/
theorem Check_required_success (t : Char → Char) (pfx key dv : GoString) (lp : Bool)
    (w : World) (h : (Check t pfx key dv true lp w).1 = none) :
    Getenv (Check t pfx key dv true lp w).2.env (keyNormalize t pfx key) ≠ "" := by
  by_cases hg : Getenv w.env (keyNormalize t pfx key) = ""
  · by_cases hd : dv = ""
    · subst hd
      rw [(Check_absent_nodefault t pfx key true lp w hg).1] at h
      simp at h
    · cases ha : setenvAccepts (keyNormalize t pfx key) dv
      · rw [((Check_absent_default t pfx key dv true lp w hg hd).2 ha).1] at h
        simp at h
      · rw [((Check_absent_default t pfx key dv true lp w hg hd).1 ha).2]
        have hne : keyNormalize t pfx key ≠ "" := by
          unfold setenvAccepts at ha
          simp only [Bool.and_eq_true, decide_eq_true_eq] at ha
          exact ha.1.1
        unfold Getenv
        simp [hne, hd]
  · rw [(Check_present t pfx key dv true lp w hg).2]
    exact hg

/-! ## Check -/

/-- C1: for every prefix, key and verbose flag, and every environment table in
which the normalized key is unset or holds the empty string,
`Check(prefix, key, "", required = true, verbose)` returns the error
"required but not set" and leaves the environment table unchanged. -/
theorem Check_required_unset_fails (t : Char → Char) (pfx key : GoString) (lp : Bool)
    (w : World)
    (h : w.env (keyNormalize t pfx key) = none ∨ w.env (keyNormalize t pfx key) = some "") :
    (Check t pfx key "" true lp w).1 = some (.errorString "required but not set")
      ∧ (Check t pfx key "" true lp w).2.env = w.env := by
  have hg := Getenv_of_unset_or_empty w.env _ h
  have hc := Check_absent_nodefault t pfx key true lp w hg
  exact ⟨by rw [hc.1]; rfl, hc.2⟩

theorem Check_required_unset_fails_witness :
    (emptyWorld.env (keyNormalize id "app" " port ") = none
        ∨ emptyWorld.env (keyNormalize id "app" " port ") = some "")
      ∧ (Check id "app" " port " "" true true emptyWorld).1
          = some (.errorString "required but not set")
      ∧ (Check id "app" " port " "" true true emptyWorld).2.env = emptyWorld.env :=
  ⟨Or.inl rfl, Check_required_unset_fails id "app" " port " true emptyWorld (Or.inl rfl)⟩

/-- C2, as stated, fails: with an empty prefix and an empty key the normalized
key is the empty name, which `os.Setenv` refuses; `Check` with the non-empty
default "X" then returns the `setenv` error, the table does not hold "X", and
`String` returns its own default. -/
theorem Check_default_counterexample :
    emptyWorld.env (keyNormalize id "" "") = none
      ∧ ("X" : GoString) ≠ ""
      ∧ (Check id "" "" "X" false false emptyWorld).1 = some .setenvEINVAL
      ∧ (Check id "" "" "X" false false emptyWorld).2.env (keyNormalize id "" "") ≠ some "X"
      ∧ envsugar.String id "" "" "d" (Check id "" "" "X" false false emptyWorld).2 ≠ "X" := by
  refine ⟨rfl, by decide, rfl, ?_, by decide⟩
  intro h
  have h2 : (none : Option GoString) = some "X" := h
  exact Option.noConfusion h2

/-- C2, amended: for every prefix, key, required flag and verbose flag, every
non-empty default value X and every environment table in which the normalized
key is unset or empty, provided `os.Setenv` accepts the pair (the normalized key
is non-empty and holds neither `=` nor NUL, X holds no NUL): `Check` returns
success (even when required is true), afterwards the table binds the
normalized key to X and a lookup yields X, so `String` returns X for every
default d. -/
theorem Check_default_injected (t : Char → Char) (pfx key dv : GoString) (req lp : Bool)
    (w : World) (hd : dv ≠ "")
    (h : w.env (keyNormalize t pfx key) = none ∨ w.env (keyNormalize t pfx key) = some "")
    (ha : setenvAccepts (keyNormalize t pfx key) dv = true) :
    (Check t pfx key dv req lp w).1 = none
      ∧ (Check t pfx key dv req lp w).2.env (keyNormalize t pfx key) = some dv
      ∧ Getenv (Check t pfx key dv req lp w).2.env (keyNormalize t pfx key) = dv
      ∧ ∀ d : GoString, envsugar.String t pfx key d (Check t pfx key dv req lp w).2 = dv := by
  have hg := Getenv_of_unset_or_empty w.env _ h
  have hc := (Check_absent_default t pfx key dv req lp w hg hd).1 ha
  have hne : keyNormalize t pfx key ≠ "" := by
    unfold setenvAccepts at ha
    simp only [Bool.and_eq_true, decide_eq_true_eq] at ha
    exact ha.1.1
  have hget : Getenv (Check t pfx key dv req lp w).2.env (keyNormalize t pfx key) = dv := by
    rw [hc.2]; unfold Getenv; simp [hne]
  refine ⟨hc.1, by rw [hc.2]; simp, hget, ?_⟩
  intro d
  unfold envsugar.String
  simp only [hget]
  simp [hd]

theorem Check_default_injected_witness :
    ("X" : GoString) ≠ ""
      ∧ (emptyWorld.env (keyNormalize id "p" "k") = none
          ∨ emptyWorld.env (keyNormalize id "p" "k") = some "")
      ∧ setenvAccepts (keyNormalize id "p" "k") "X" = true
      ∧ (Check id "p" "k" "X" true false emptyWorld).1 = none
      ∧ (Check id "p" "k" "X" true false emptyWorld).2.env (keyNormalize id "p" "k") = some "X"
      ∧ Getenv (Check id "p" "k" "X" true false emptyWorld).2.env (keyNormalize id "p" "k") = "X"
      ∧ ∀ d : GoString,
          envsugar.String id "p" "k" d (Check id "p" "k" "X" true false emptyWorld).2 = "X" :=
  ⟨by decide, Or.inl rfl, by decide,
    Check_default_injected id "p" "k" "X" true false emptyWorld (by decide) (Or.inl rfl)
      (by decide)⟩

/-- C3, as stated, fails: `Check` also returns an error when writing the
default fails. With key "a=b", default "X" and required = false it returns the
`setenv` error, although the default is non-empty and the variable is not
required, and that error is not "required but not set". -/
theorem Check_error_counterexample :
    (Check id "" "a=b" "X" false false emptyWorld).1 = some .setenvEINVAL
      ∧ GoError.setenvEINVAL ≠ .errorString "required but not set"
      ∧ ¬ (("X" : GoString) = "" ∧ false = true) := by
  refine ⟨rfl, by decide, by decide⟩

/-- C3, amended: `Check` returns an error in exactly two situations, both with
the normalized key holding no non-empty value: (a) the default is empty and
required is true, and the error is "required but not set"; (b) the default is
non-empty and `os.Setenv` refuses to write it (normalized key empty or holding
`=` or NUL, or default holding NUL), and the error is the `setenv` error. In
every other situation `Check` returns success. -/
theorem Check_error_iff (t : Char → Char) (pfx key dv : GoString) (req lp : Bool)
    (w : World) :
    (∀ err : GoError, (Check t pfx key dv req lp w).1 = some err ↔
        Getenv w.env (keyNormalize t pfx key) = ""
          ∧ ((dv = "" ∧ req = true ∧ err = .errorString "required but not set")
            ∨ (dv ≠ "" ∧ setenvAccepts (keyNormalize t pfx key) dv = false
                ∧ err = .setenvEINVAL)))
      ∧ ((Check t pfx key dv req lp w).1 = none ↔
        ¬ (Getenv w.env (keyNormalize t pfx key) = ""
          ∧ ((dv = "" ∧ req = true)
            ∨ (dv ≠ "" ∧ setenvAccepts (keyNormalize t pfx key) dv = false)))) := by
  by_cases hg : Getenv w.env (keyNormalize t pfx key) = ""
  · by_cases hd : dv = ""
    · subst hd
      rw [(Check_absent_nodefault t pfx key req lp w hg).1]
      cases req
      · simp
      · refine ⟨fun err => ⟨fun h => ?_, fun h => ?_⟩, ?_⟩
        · simp only [if_true, Option.some.injEq] at h
          simp [hg, h.symm]
        · rcases h with ⟨_, h | h⟩
          · simp [h.2.2]
          · exact absurd rfl h.1
        · simp [hg]
    · cases ha : setenvAccepts (keyNormalize t pfx key) dv
      · rw [((Check_absent_default t pfx key dv req lp w hg hd).2 ha).1]
        refine ⟨fun err => ⟨fun h => ?_, fun h => ?_⟩, ?_⟩
        · simp only [Option.some.injEq] at h
          simp [hg, hd, h.symm]
        · rcases h with ⟨_, h | h⟩
          · exact absurd h.1 hd
          · simp [h.2.2]
        · simp [hg, hd]
      · rw [((Check_absent_default t pfx key dv req lp w hg hd).1 ha).1]
        simp [hd]
  · rw [(Check_present t pfx key dv req lp w hg).1]
    simp [hg]

/-- C4: if `Check(prefix, key, defaultValue, required = true, verbose)` returns
success, then in the resulting environment table the normalized key holds a
non-empty value; and if `CheckMany(prefix, directives, verbose)` returns
success, then for every directive of the list with `Required = true` the key
`keyNormalize(prefix, directive.Name)` holds a non-empty value in the final
environment table. -/
theorem required_resolves_to_value (t : Char → Char) (pfx : GoString) (lp : Bool)
    (w : World) :
    (∀ key dv : GoString, (Check t pfx key dv true lp w).1 = none →
        ∃ v : GoString, v ≠ ""
          ∧ (Check t pfx key dv true lp w).2.env (keyNormalize t pfx key) = some v
          ∧ Getenv (Check t pfx key dv true lp w).2.env (keyNormalize t pfx key) = v)
      ∧ (∀ ds : List Directives, (CheckMany t pfx ds lp w).1 = none →
        ∀ d ∈ ds, d.Required = true →
          ∃ v : GoString, v ≠ ""
            ∧ (CheckMany t pfx ds lp w).2.env (keyNormalize t pfx d.Name) = some v
            ∧ Getenv (CheckMany t pfx ds lp w).2.env (keyNormalize t pfx d.Name) = v) := by
  constructor
  · intro key dv h
    have hv := Check_required_success t pfx key dv lp w h
    exact ⟨_, hv, (Getenv_ne_empty _ _ hv).2, rfl⟩
  · intro ds h d hd hreq
    suffices hv : Getenv (CheckMany t pfx ds lp w).2.env (keyNormalize t pfx d.Name) ≠ "" from
      ⟨_, hv, (Getenv_ne_empty _ _ hv).2, rfl⟩
    induction ds generalizing w with
    | nil => cases hd
    | cons d0 ds ih =>
      unfold CheckMany at h ⊢
      rcases hc : Check t pfx d0.Name d0.DefaultValue d0.Required lp w with ⟨e, w'⟩
      rw [hc] at h
      cases e with
      | some err => simp at h
      | none =>
        simp only at h ⊢
        rcases List.mem_cons.1 hd with heq | hmem
        · subst heq
          have h1 : (Check t pfx d.Name d.DefaultValue true lp w).1 = none := by
            rw [← hreq, hc]
          have h2 := Check_required_success t pfx d.Name d.DefaultValue lp w h1
          rw [← hreq, hc] at h2
          rw [CheckMany_keeps_value t pfx ds lp w' _ h2]
          exact h2
        · exact ih w' h hmem

theorem required_resolves_to_value_witness :
    (∃ v : GoString, v ≠ ""
        ∧ (Check id "p" "k" "X" true false emptyWorld).2.env (keyNormalize id "p" "k") = some v
        ∧ Getenv (Check id "p" "k" "X" true false emptyWorld).2.env (keyNormalize id "p" "k") = v)
      ∧ (∃ v : GoString, v ≠ ""
        ∧ (CheckMany id "p" [⟨"a", true, "1"⟩, ⟨"b", false, ""⟩] false emptyWorld).2.env
            (keyNormalize id "p" "a") = some v
        ∧ Getenv (CheckMany id "p" [⟨"a", true, "1"⟩, ⟨"b", false, ""⟩] false emptyWorld).2.env
            (keyNormalize id "p" "a") = v) :=
  ⟨(required_resolves_to_value id "p" false emptyWorld).1 "k" "X" rfl,
    (required_resolves_to_value id "p" false emptyWorld).2
      [⟨"a", true, "1"⟩, ⟨"b", false, ""⟩] rfl ⟨"a", true, "1"⟩ (List.mem_cons_self _ _) rfl⟩

/-- C5: `Check` never overwrites an existing value and touches at most one key:
if the normalized key already holds a non-empty value then `Check` returns
success and the whole environment table is unchanged, whatever the default and
the required flag; if the key is empty, the default is empty and required is
false, `Check` returns success and the table is unchanged; and in every case,
the default-injection case included, every key other than
`keyNormalize(prefix, key)` keeps its previous value. -/
theorem Check_frame_effect (t : Char → Char) (pfx key : GoString) (lp : Bool) (w : World) :
    (∀ (dv : GoString) (req : Bool), Getenv w.env (keyNormalize t pfx key) ≠ "" →
        (Check t pfx key dv req lp w).1 = none
          ∧ (Check t pfx key dv req lp w).2.env = w.env)
      ∧ (Getenv w.env (keyNormalize t pfx key) = "" →
        (Check t pfx key "" false lp w).1 = none
          ∧ (Check t pfx key "" false lp w).2.env = w.env)
      ∧ (∀ (dv : GoString) (req : Bool) (k : GoString), k ≠ keyNormalize t pfx key →
        (Check t pfx key dv req lp w).2.env k = w.env k) := by
  refine ⟨fun dv req h => Check_present t pfx key dv req lp w h, fun h => ?_,
    fun dv req k hk => Check_frame t pfx key dv req lp w k hk⟩
  have hc := Check_absent_nodefault t pfx key false lp w h
  exact ⟨by rw [hc.1]; rfl, hc.2⟩

theorem Check_frame_effect_witness :
    ((Check id "p" "k" "X" true false (singleWorld "P_K" "v")).1 = none
        ∧ (Check id "p" "k" "X" true false (singleWorld "P_K" "v")).2.env
            = (singleWorld "P_K" "v").env)
      ∧ ((Check id "p" "k" "" false false emptyWorld).1 = none
        ∧ (Check id "p" "k" "" false false emptyWorld).2.env = emptyWorld.env)
      ∧ (Check id "p" "k" "X" false false (singleWorld "OTHER" "v")).2.env "OTHER"
          = (singleWorld "OTHER" "v").env "OTHER" :=
  ⟨(Check_frame_effect id "p" "k" false (singleWorld "P_K" "v")).1 "X" true (by decide),
    (Check_frame_effect id "p" "k" false emptyWorld).2.1 (by decide),
    (Check_frame_effect id "p" "k" false (singleWorld "OTHER" "v")).2.2 "X" false "OTHER"
      (by decide)⟩

/-! ## CheckMany -/

theorem checkFold_cons (t : Char → Char) (pfx : GoString) (lp : Bool) (d : Directives)
    (ds : List Directives) (w : World) :
    checkFold t pfx lp (d :: ds) w = checkFold t pfx lp ds (checkDirective t pfx lp d w).2 :=
  rfl

theorem CheckMany_cons_of_ok (t : Char → Char) (pfx : GoString) (lp : Bool) (d : Directives)
    (ds : List Directives) (w : World) (h : (checkDirective t pfx lp d w).1 = none) :
    CheckMany t pfx (d :: ds) lp w = CheckMany t pfx ds lp (checkDirective t pfx lp d w).2 := by
  unfold checkDirective at h ⊢
  rw [CheckMany]
  rcases hc : Check t pfx d.Name d.DefaultValue d.Required lp w with ⟨e, w'⟩
  rw [hc] at h
  simp only at h
  subst h
  rfl

theorem CheckMany_cons_of_error (t : Char → Char) (pfx : GoString) (lp : Bool)
    (d : Directives) (ds : List Directives) (w : World) (err : GoError)
    (h : (checkDirective t pfx lp d w).1 = some err) :
    CheckMany t pfx (d :: ds) lp w = (some err, (checkDirective t pfx lp d w).2) := by
  unfold checkDirective at h ⊢
  rw [CheckMany]
  rcases hc : Check t pfx d.Name d.DefaultValue d.Required lp w with ⟨e, w'⟩
  rw [hc] at h
  simp only at h
  subst h
  rfl

/-- C6: `CheckMany` short-circuits in sequence order. If directive `i` is the
first whose `Check` fails when the directives are run in order on the evolving
environment table, then `CheckMany` returns the error of that directive and
leaves the world exactly as that `Check` left it; no directive after index `i`
is evaluated: whatever follows index `i` in the list, result and world are the
same, so no default of a later directive is written. -/
theorem CheckMany_short_circuits (t : Char → Char) (pfx : GoString) (lp : Bool)
    (ds : List Directives) (w : World) (i : Nat) (d : Directives) (err : GoError)
    (hd : ds[i]? = some d)
    (hpass : ∀ (j : Nat) (dj : Directives), j < i → ds[j]? = some dj →
      (checkDirective t pfx lp dj (checkFold t pfx lp (ds.take j) w)).1 = none)
    (hfail : (checkDirective t pfx lp d (checkFold t pfx lp (ds.take i) w)).1 = some err) :
    CheckMany t pfx ds lp w
        = (some err, (checkDirective t pfx lp d (checkFold t pfx lp (ds.take i) w)).2)
      ∧ ∀ later : List Directives,
          CheckMany t pfx (ds.take (i + 1) ++ later) lp w = CheckMany t pfx ds lp w := by
  induction ds generalizing w i with
  | nil => simp at hd
  | cons d0 ds ih =>
    cases i with
    | zero =>
      simp only [List.getElem?_cons_zero, Option.some.injEq] at hd
      subst hd
      have hf : (checkDirective t pfx lp d0 w).1 = some err := hfail
      refine ⟨CheckMany_cons_of_error t pfx lp d0 ds w err hf, fun later => ?_⟩
      rw [CheckMany_cons_of_error t pfx lp d0 ds w err hf]
      exact CheckMany_cons_of_error t pfx lp d0 _ w err hf
    | succ i =>
      have h0 : (checkDirective t pfx lp d0 w).1 = none :=
        hpass 0 d0 (Nat.succ_pos i) List.getElem?_cons_zero
      have hd' : ds[i]? = some d := by simpa using hd
      have hpass' : ∀ (j : Nat) (dj : Directives), j < i → ds[j]? = some dj →
          (checkDirective t pfx lp dj
            (checkFold t pfx lp (ds.take j) (checkDirective t pfx lp d0 w).2)).1 = none := by
        intro j dj hj hdj
        exact hpass (j + 1) dj (Nat.succ_lt_succ hj) (by simpa using hdj)
      have hrec := ih (checkDirective t pfx lp d0 w).2 i hd' hpass' hfail
      refine ⟨?_, fun later => ?_⟩
      · rw [CheckMany_cons_of_ok t pfx lp d0 ds w h0]
        exact hrec.1
      · rw [CheckMany_cons_of_ok t pfx lp d0 ds w h0]
        have : List.take (i + 1 + 1) (d0 :: ds) ++ later = d0 :: (List.take (i + 1) ds ++ later) :=
          rfl
        rw [this, CheckMany_cons_of_ok t pfx lp d0 _ w h0]
        exact hrec.2 later

/-- C6, the witness of the claim: `[A(required, unset, no default),
B(default "X", unset)]` fails on `A` with "required but not set", and the key of
`B` is still unset afterwards. -/
theorem CheckMany_short_circuits_witness :
    (CheckMany id "" [⟨"A", true, ""⟩, ⟨"B", false, "X"⟩] false emptyWorld
        = (some (.errorString "required but not set"),
            (checkDirective id "" false ⟨"A", true, ""⟩
              (checkFold id "" false (List.take 0 [⟨"A", true, ""⟩, ⟨"B", false, "X"⟩])
                emptyWorld)).2)
      ∧ ∀ later : List Directives,
          CheckMany id "" (List.take (0 + 1) [⟨"A", true, ""⟩, ⟨"B", false, "X"⟩] ++ later)
              false emptyWorld
            = CheckMany id "" [⟨"A", true, ""⟩, ⟨"B", false, "X"⟩] false emptyWorld)
      ∧ (CheckMany id "" [⟨"A", true, ""⟩, ⟨"B", false, "X"⟩] false emptyWorld).2.env
          (keyNormalize id "" "B") = none :=
  ⟨CheckMany_short_circuits id "" false [⟨"A", true, ""⟩, ⟨"B", false, "X"⟩] emptyWorld 0
      ⟨"A", true, ""⟩ (.errorString "required but not set") rfl
      (fun j _ hj _ => absurd hj (Nat.not_lt_zero j)) rfl,
    rfl⟩

/-- C7: `CheckMany(prefix, directives, verbose)` returns success if and only if
every directive passes, directive `i` being judged by `Check` run on the world
left by directives `0..i-1`; on the empty list it returns success and leaves
the world unchanged; and on success the final world (environment table
included) is the left-to-right fold of `Check` over the list. -/
theorem CheckMany_success_iff (t : Char → Char) (pfx : GoString) (lp : Bool)
    (ds : List Directives) (w : World) :
    ((CheckMany t pfx ds lp w).1 = none ↔
        ∀ (i : Nat) (d : Directives), ds[i]? = some d →
          (checkDirective t pfx lp d (checkFold t pfx lp (ds.take i) w)).1 = none)
      ∧ CheckMany t pfx [] lp w = (none, w)
      ∧ ((CheckMany t pfx ds lp w).1 = none →
          (CheckMany t pfx ds lp w).2 = checkFold t pfx lp ds w
            ∧ (CheckMany t pfx ds lp w).2.env = (checkFold t pfx lp ds w).env) := by
  refine ⟨?_, rfl, ?_⟩
  · induction ds generalizing w with
    | nil => simp [CheckMany]
    | cons d0 ds ih =>
      constructor
      · intro h i d hd
        cases h0 : (checkDirective t pfx lp d0 w).1 with
        | some err =>
          rw [CheckMany_cons_of_error t pfx lp d0 ds w err h0] at h
          simp at h
        | none =>
          rw [CheckMany_cons_of_ok t pfx lp d0 ds w h0] at h
          cases i with
          | zero =>
            simp only [List.getElem?_cons_zero, Option.some.injEq] at hd
            subst hd
            exact h0
          | succ i =>
            exact (ih (checkDirective t pfx lp d0 w).2).1 h i d (by simpa using hd)
      · intro h
        have h0 : (checkDirective t pfx lp d0 w).1 = none := h 0 d0 List.getElem?_cons_zero
        rw [CheckMany_cons_of_ok t pfx lp d0 ds w h0]
        refine (ih (checkDirective t pfx lp d0 w).2).2 ?_
        intro i d hd
        exact h (i + 1) d (by simpa using hd)
  · intro h
    suffices hs : (CheckMany t pfx ds lp w).2 = checkFold t pfx lp ds w from ⟨hs, by rw [hs]⟩
    induction ds generalizing w with
    | nil => rfl
    | cons d0 ds ih =>
      cases h0 : (checkDirective t pfx lp d0 w).1 with
      | some err =>
        rw [CheckMany_cons_of_error t pfx lp d0 ds w err h0] at h
        simp at h
      | none =>
        rw [CheckMany_cons_of_ok t pfx lp d0 ds w h0] at h ⊢
        rw [checkFold_cons]
        exact ih _ h

theorem CheckMany_success_iff_witness :
    (CheckMany id "p" [⟨"a", true, "1"⟩, ⟨"b", false, ""⟩] false emptyWorld).2
        = checkFold id "p" false [⟨"a", true, "1"⟩, ⟨"b", false, ""⟩] emptyWorld
      ∧ (CheckMany id "p" [⟨"a", true, "1"⟩, ⟨"b", false, ""⟩] false emptyWorld).2.env
        = (checkFold id "p" false [⟨"a", true, "1"⟩, ⟨"b", false, ""⟩] emptyWorld).env :=
  (CheckMany_success_iff id "p" false [⟨"a", true, "1"⟩, ⟨"b", false, ""⟩] emptyWorld).2.2 rfl

/-! ## keyNormalize -/

theorem dropWhile_eq_self_of_head {α : Type} (p : α → Bool) (l : List α)
    (h : ∀ c, l.head? = some c → p c = false) : l.dropWhile p = l := by
  cases l with
  | nil => rfl
  | cons a l => simp [List.dropWhile_cons, h a rfl]

/-- A sequence that neither starts nor ends with white space is left as it is. -/
theorem trimSpaceRunes_fixed (l : List Char)
    (h1 : ∀ c, l.head? = some c → isSpace c = false)
    (h2 : ∀ c, l.getLast? = some c → isSpace c = false) : trimSpaceRunes l = l := by
  unfold trimSpaceRunes
  rw [dropWhile_eq_self_of_head isSpace l h1,
    dropWhile_eq_self_of_head isSpace l.reverse (by simpa using h2), List.reverse_reverse]

/-- The trimmed sequence does not end with white space. -/
theorem trimSpaceRunes_getLast (s : List Char) (c : Char)
    (h : (trimSpaceRunes s).getLast? = some c) : isSpace c = false := by
  unfold trimSpaceRunes at h
  rw [List.getLast?_reverse] at h
  have h3 := List.head?_dropWhile_not isSpace (s.dropWhile isSpace).reverse
  rw [h] at h3
  exact h3

/-- The trimmed sequence is an initial segment of what is left after dropping
the leading white space. -/
theorem trimSpaceRunes_append (s : List Char) :
    ∃ r : List Char, s.dropWhile isSpace = trimSpaceRunes s ++ r ∧ ∀ c ∈ r, isSpace c = true := by
  refine ⟨((s.dropWhile isSpace).reverse.takeWhile isSpace).reverse, ?_, ?_⟩
  · have h := List.takeWhile_append_dropWhile isSpace (s.dropWhile isSpace).reverse
    have h2 := congrArg List.reverse h
    rw [List.reverse_append, List.reverse_reverse] at h2
    exact h2.symm
  · intro c hc
    rw [List.mem_reverse] at hc
    exact List.mem_takeWhile_imp hc

/-- The trimmed sequence does not start with white space. -/
theorem trimSpaceRunes_head (s : List Char) (c : Char)
    (h : (trimSpaceRunes s).head? = some c) : isSpace c = false := by
  obtain ⟨r, hr, -⟩ := trimSpaceRunes_append s
  have h3 := List.head?_dropWhile_not isSpace s
  rw [hr] at h3
  cases ht : trimSpaceRunes s with
  | nil => rw [ht] at h; simp at h
  | cons a l =>
    rw [ht] at h h3
    simp only [List.head?_cons, Option.some.injEq] at h
    subst h
    simpa using h3

/-- What `TrimSpace` returns: the input is leading white space, the result,
trailing white space, and the result neither starts nor ends with white space. -/
theorem TrimSpace_surrounding (s : GoString) :
    (∃ l r : List Char, s.data = l ++ (TrimSpace s).data ++ r
        ∧ (∀ c ∈ l, isSpace c = true) ∧ (∀ c ∈ r, isSpace c = true))
      ∧ (∀ c, (TrimSpace s).data.head? = some c → isSpace c = false)
      ∧ (∀ c, (TrimSpace s).data.getLast? = some c → isSpace c = false) := by
  refine ⟨?_, trimSpaceRunes_head s.data, trimSpaceRunes_getLast s.data⟩
  obtain ⟨r, hr, hrs⟩ := trimSpaceRunes_append s.data
  refine ⟨s.data.takeWhile isSpace, r, ?_, fun c hc => List.mem_takeWhile_imp hc, hrs⟩
  show s.data = List.takeWhile isSpace s.data ++ trimSpaceRunes s.data ++ r
  rw [List.append_assoc, ← hr, List.takeWhile_append_dropWhile]

theorem trimSpaceRunes_idem (s : List Char) :
    trimSpaceRunes (trimSpaceRunes s) = trimSpaceRunes s :=
  trimSpaceRunes_fixed _ (trimSpaceRunes_head s) (trimSpaceRunes_getLast s)

theorem TrimSpace_idem (s : GoString) : TrimSpace (TrimSpace s) = TrimSpace s := by
  unfold TrimSpace
  rw [trimSpaceRunes_idem]

theorem GoString_eq_empty_iff (s : GoString) : s = "" ↔ s.data = [] := by
  constructor
  · intro h; rw [h]
  · intro h; exact String.ext h

theorem Sprintf_join (p k : GoString) :
    (Sprintf "%s_%s" [p, k]).data = p.data ++ '_' :: k.data := by
  show sprintfRunes ['%', 's', '_', '%', 's'] [p, k] = _
  simp [sprintfRunes]

/-- The code points of the normalized key. -/
theorem keyNormalize_data (t : Char → Char) (pfx key : GoString) :
    (keyNormalize t pfx key).data =
      if trimSpaceRunes pfx.data = [] then (trimSpaceRunes key.data).map (toUpperRune t)
      else (trimSpaceRunes pfx.data ++ '_' :: trimSpaceRunes key.data).map (toUpperRune t) := by
  unfold keyNormalize
  by_cases h : trimSpaceRunes pfx.data = []
  · have h2 : TrimSpace pfx = "" := (GoString_eq_empty_iff _).2 h
    simp [h, h2, ToUpper, TrimSpace]
  · have h2 : TrimSpace pfx ≠ "" := fun h3 => h ((GoString_eq_empty_iff _).1 h3)
    simp only [h2, ne_eq, not_false_eq_true, if_true, h, if_false, ToUpper, Sprintf_join]
    rfl

/-- C8: `keyNormalize` equals its reference definition for every prefix and
key: with p and k the prefix and the key trimmed of surrounding white space,
the result is upper(p ++ "_" ++ k) when p is non-empty and upper(k) when p is
empty; `keyNormalize(" p ", " k ") = "P_K"` and `keyNormalize("", "k") = "K"`
(no underscore injected). -/
theorem keyNormalize_eq_spec :
    (∀ (t : Char → Char) (pfx key : GoString),
        keyNormalize t pfx key = keyNormalizeSpec t pfx key)
      ∧ (∀ t : Char → Char, keyNormalize t " p " " k " = "P_K")
      ∧ (∀ t : Char → Char, keyNormalize t "" "k" = "K") := by
  refine ⟨fun t pfx key => ?_, fun t => rfl, fun t => rfl⟩
  apply String.ext
  rw [keyNormalize_data]
  unfold keyNormalizeSpec
  by_cases h : trimSpaceRunes pfx.data = []
  · have h2 : TrimSpace pfx = "" := (GoString_eq_empty_iff _).2 h
    simp [h, h2, ToUpper, TrimSpace]
  · have h2 : TrimSpace pfx ≠ "" := fun h3 => h ((GoString_eq_empty_iff _).1 h3)
    simp only [h2, if_false, h, ToUpper, String.data_append]
    simp [TrimSpace]

/-- The upper-case form of an ASCII lower-case letter is the letter 32 places
below it. -/
theorem toUpperRune_of_lower (t : Char → Char) (c : Char)
    (h : 0x61 ≤ c.toNat ∧ c.toNat ≤ 0x7A) :
    (toUpperRune t c).toNat = c.toNat - 0x20 := by
  have hc := Char.ofNat_toNat c
  have h7 : c.toNat ≤ 0x7F := by omega
  have hu : toUpperRune t c = Char.ofNat (c.toNat - 0x20) := by
    unfold toUpperRune
    rw [if_pos h7, if_pos h]
  rw [hu]
  obtain ⟨h1, h2⟩ := h
  generalize c.toNat = n at h1 h2
  interval_cases n <;> rfl

/-- An ASCII rune that is not a lower-case letter is its own upper-case form. -/
theorem toUpperRune_of_ascii_not_lower (t : Char → Char) (c : Char) (h7 : c.toNat ≤ 0x7F)
    (h : ¬ (0x61 ≤ c.toNat ∧ c.toNat ≤ 0x7A)) : toUpperRune t c = c := by
  unfold toUpperRune
  rw [if_pos h7, if_neg h]

/-- With a case table that moves no rune, upper-casing twice is upper-casing
once. -/
theorem toUpperRune_id_idem (c : Char) :
    toUpperRune id (toUpperRune id c) = toUpperRune id c := by
  by_cases h7 : c.toNat ≤ 0x7F
  · by_cases h : 0x61 ≤ c.toNat ∧ c.toNat ≤ 0x7A
    · have hu := toUpperRune_of_lower id c h
      exact toUpperRune_of_ascii_not_lower id _ (by omega) (by omega)
    · rw [toUpperRune_of_ascii_not_lower id c h7 h, toUpperRune_of_ascii_not_lower id c h7 h]
  · have hu : toUpperRune id c = c := by
      unfold toUpperRune
      rw [if_neg h7]
      rfl
    rw [hu, hu]

/-- With a case table that moves no rune, upper-casing makes no white space. -/
theorem toUpperRune_id_space (c : Char) (hs : isSpace (toUpperRune id c) = true) :
    isSpace c = true := by
  by_cases h7 : c.toNat ≤ 0x7F
  · by_cases h : 0x61 ≤ c.toNat ∧ c.toNat ≤ 0x7A
    · exfalso
      have hu := toUpperRune_of_lower id c h
      unfold isSpace at hs
      simp only [hu] at hs
      have hle : c.toNat - 0x20 ≤ 0xFF := by omega
      simp only [hle, if_true, Bool.or_eq_true, decide_eq_true_eq] at hs
      omega
    · rw [toUpperRune_of_ascii_not_lower id c h7 h] at hs
      exact hs
  · have hu : toUpperRune id c = c := by
      unfold toUpperRune
      rw [if_neg h7]
      rfl
    rw [hu] at hs
    exact hs

theorem head?_map_not_space (t : Char → Char)
    (hspace : ∀ c, isSpace (toUpperRune t c) = true → isSpace c = true) (l : List Char)
    (h : ∀ c, l.head? = some c → isSpace c = false) :
    ∀ c, (l.map (toUpperRune t)).head? = some c → isSpace c = false := by
  intro c hc
  cases l with
  | nil => simp at hc
  | cons a l =>
    simp only [List.map_cons, List.head?_cons, Option.some.injEq] at hc
    subst hc
    have ha := h a rfl
    cases hs : isSpace (toUpperRune t a) with
    | false => rfl
    | true => rw [hspace a hs] at ha; exact absurd ha (by decide)

theorem getLast?_map_not_space (t : Char → Char)
    (hspace : ∀ c, isSpace (toUpperRune t c) = true → isSpace c = true) (l : List Char)
    (h : ∀ c, l.getLast? = some c → isSpace c = false) :
    ∀ c, (l.map (toUpperRune t)).getLast? = some c → isSpace c = false := by
  intro c hc
  rw [← List.head?_reverse, ← List.map_reverse] at hc
  exact head?_map_not_space t hspace l.reverse (by simpa using h) c hc

/-- The joined key, before upper-casing, neither starts nor ends with white
space. -/
theorem joined_not_space (p k : List Char) :
    (∀ c, (if trimSpaceRunes p = [] then trimSpaceRunes k
        else trimSpaceRunes p ++ '_' :: trimSpaceRunes k).head? = some c → isSpace c = false)
      ∧ (∀ c, (if trimSpaceRunes p = [] then trimSpaceRunes k
        else trimSpaceRunes p ++ '_' :: trimSpaceRunes k).getLast? = some c
          → isSpace c = false) := by
  by_cases h : trimSpaceRunes p = []
  · simp only [h, if_true]
    exact ⟨trimSpaceRunes_head k, trimSpaceRunes_getLast k⟩
  · simp only [h, if_false]
    constructor
    · intro c hc
      cases hp : trimSpaceRunes p with
      | nil => exact absurd hp h
      | cons a l =>
        rw [hp] at hc
        simp only [List.cons_append, List.head?_cons, Option.some.injEq] at hc
        subst hc
        exact trimSpaceRunes_head p a (by rw [hp]; rfl)
    · intro c hc
      rw [List.getLast?_append_of_ne_nil _ (List.cons_ne_nil _ _)] at hc
      cases hk : trimSpaceRunes k with
      | nil =>
        rw [hk] at hc
        simp only [List.getLast?_singleton, Option.some.injEq] at hc
        subst hc
        rfl
      | cons a l =>
        rw [hk, List.getLast?_cons_cons] at hc
        apply trimSpaceRunes_getLast k c
        rw [hk]
        exact hc

/-- The normalized key is left as it is by `TrimSpace`. -/
theorem keyNormalize_trimmed (t : Char → Char)
    (hspace : ∀ c, isSpace (toUpperRune t c) = true → isSpace c = true) (pfx key : GoString) :
    TrimSpace (keyNormalize t pfx key) = keyNormalize t pfx key := by
  apply String.ext
  show trimSpaceRunes (keyNormalize t pfx key).data = (keyNormalize t pfx key).data
  rw [keyNormalize_data]
  have hj := joined_not_space pfx.data key.data
  by_cases h : trimSpaceRunes pfx.data = []
  · simp only [h, if_true] at hj ⊢
    exact trimSpaceRunes_fixed _ (head?_map_not_space t hspace _ hj.1)
      (getLast?_map_not_space t hspace _ hj.2)
  · simp only [h, if_false] at hj ⊢
    exact trimSpaceRunes_fixed _ (head?_map_not_space t hspace _ hj.1)
      (getLast?_map_not_space t hspace _ hj.2)

/-- Every rune of the normalized key is an upper-case form. -/
theorem keyNormalize_mem (t : Char → Char) (pfx key : GoString) (c : Char)
    (hc : c ∈ (keyNormalize t pfx key).data) : ∃ c0 : Char, toUpperRune t c0 = c := by
  rw [keyNormalize_data] at hc
  by_cases h : trimSpaceRunes pfx.data = []
  · simp only [h, if_true, List.mem_map] at hc
    obtain ⟨c0, -, h0⟩ := hc
    exact ⟨c0, h0⟩
  · simp only [h, if_false, List.mem_map] at hc
    obtain ⟨c0, -, h0⟩ := hc
    exact ⟨c0, h0⟩

/-- The normalized key is left as it is by `ToUpper`. -/
theorem keyNormalize_upper (t : Char → Char)
    (hidem : ∀ c, toUpperRune t (toUpperRune t c) = toUpperRune t c) (pfx key : GoString) :
    ToUpper t (keyNormalize t pfx key) = keyNormalize t pfx key := by
  apply String.ext
  show (keyNormalize t pfx key).data.map (toUpperRune t) = (keyNormalize t pfx key).data
  conv_rhs => rw [← List.map_id (keyNormalize t pfx key).data]
  apply List.map_congr_left
  intro c hc
  obtain ⟨c0, h0⟩ := keyNormalize_mem t pfx key c hc
  rw [← h0, hidem]
  rfl

/-- C9, amended: `keyNormalize` is idempotent under re-trimming. For every prefix
and key, `keyNormalize(prefix, key) = keyNormalize(trim(prefix), trim(key))`;
and, provided the case table of `unicode.ToUpper` is idempotent and makes no
white space out of other runes, normalizing an already normalized key with an
empty prefix changes nothing, the result has no surrounding white space
(`TrimSpace` leaves it as it is), it is its own upper-case form and it holds
no letter `a..z`. A lower-case letter without an upper-case form of its own,
such as `ß`, stays in the result. -/
theorem keyNormalize_idempotent (t : Char → Char)
    (hidem : ∀ c, toUpperRune t (toUpperRune t c) = toUpperRune t c)
    (hspace : ∀ c, isSpace (toUpperRune t c) = true → isSpace c = true)
    (pfx key : GoString) :
    keyNormalize t pfx key = keyNormalize t (TrimSpace pfx) (TrimSpace key)
      ∧ keyNormalize t "" (keyNormalize t pfx key) = keyNormalize t pfx key
      ∧ TrimSpace (keyNormalize t pfx key) = keyNormalize t pfx key
      ∧ ToUpper t (keyNormalize t pfx key) = keyNormalize t pfx key
      ∧ ∀ c ∈ (keyNormalize t pfx key).data, ¬ (0x61 ≤ c.toNat ∧ c.toNat ≤ 0x7A) := by
  have htrim := keyNormalize_trimmed t hspace pfx key
  have hup := keyNormalize_upper t hidem pfx key
  refine ⟨?_, ?_, htrim, hup, ?_⟩
  · unfold keyNormalize
    simp only [TrimSpace_idem]
  · have h0 : TrimSpace "" = "" := rfl
    unfold keyNormalize
    simp only [h0, ne_eq, not_true_eq_false, if_false]
    have h1 := htrim
    have h2 := hup
    unfold keyNormalize at h1 h2
    rw [h1, h2]
  · intro c hc hlow
    obtain ⟨c0, h0⟩ := keyNormalize_mem t pfx key c hc
    have h1 : toUpperRune t c = c := by rw [← h0, hidem]
    have h2 := toUpperRune_of_lower t c hlow
    rw [h1] at h2
    omega

/-! ## strconv.Atoi against the reference reading of numerals -/

theorem isDecDigit_iff (c : Char) : isDecDigit c = true ↔ 0x30 ≤ c.toNat ∧ c.toNat ≤ 0x39 := by
  unfold isDecDigit
  simp

theorem digitsFrom_cons (n : Nat) (c : Char) (cs : List Char) :
    digitsFrom n (c :: cs) = digitsFrom (n * 10 + (c.toNat - 0x30)) cs := rfl

theorem le_digitsFrom (ds : List Char) (n : Nat) : n ≤ digitsFrom n ds := by
  induction ds generalizing n with
  | nil => exact Nat.le_refl n
  | cons c cs ih =>
    rw [digitsFrom_cons]
    have := ih (n * 10 + (c.toNat - 0x30))
    omega

/-- A run of `k` digits read after `n` stays below `(n + 1) * 10 ^ k`. -/
theorem digitsFrom_lt (ds : List Char) (n : Nat) (h : ∀ c ∈ ds, isDecDigit c = true) :
    digitsFrom n ds < (n + 1) * 10 ^ ds.length := by
  induction ds generalizing n with
  | nil => simp [digitsFrom]
  | cons c cs ih =>
    rw [digitsFrom_cons]
    have hc := (isDecDigit_iff c).1 (h c (List.mem_cons_self _ _))
    have h1 := ih (n * 10 + (c.toNat - 0x30)) (fun x hx => h x (List.mem_cons_of_mem _ hx))
    have h2 : (n * 10 + (c.toNat - 0x30) + 1) * 10 ^ cs.length
        ≤ ((n + 1) * 10) * 10 ^ cs.length :=
      Nat.mul_le_mul_right _ (by omega)
    rw [List.length_cons, Nat.pow_succ, Nat.mul_comm (10 ^ cs.length) 10, ← Nat.mul_assoc]
    omega

theorem maxUint64_eq : maxUint64 = 18446744073709551615 := by decide

/-- What the loop of `ParseUint` returns, in terms of the digits it reads. -/
theorem parseUintLoop_eq (s : List Char) (n : Nat) (hn : n ≤ maxUint64) :
    parseUintLoop s n =
      if digitsFrom n (s.takeWhile isDecDigit) > maxUint64 then (maxUint64, some .ErrRange)
      else if s.dropWhile isDecDigit = [] then (digitsFrom n s, none)
      else (0, some .ErrSyntax) := by
  induction s generalizing n with
  | nil =>
    have h0 : ¬ digitsFrom n [] > maxUint64 := by
      show ¬ n > maxUint64
      omega
    rw [List.takeWhile_nil, if_neg h0, List.dropWhile_nil, if_pos rfl]
    rfl
  | cons c cs ih =>
    rw [maxUint64_eq] at hn
    by_cases hd : isDecDigit c = true
    · have hc := (isDecDigit_iff c).1 hd
      rw [List.takeWhile_cons_of_pos hd, List.dropWhile_cons_of_pos hd, digitsFrom_cons,
        digitsFrom_cons]
      have hle := le_digitsFrom (cs.takeWhile isDecDigit) (n * 10 + (c.toNat - 0x30))
      unfold parseUintLoop
      simp only [hc, and_self, if_true]
      have h10 : ¬ (c.toNat - 0x30 ≥ 10) := by omega
      simp only [h10, if_false]
      by_cases hcut : n ≥ maxUint64 / 10 + 1
      · rw [if_pos hcut]
        rw [maxUint64_eq] at hcut
        have : digitsFrom (n * 10 + (c.toNat - 0x30)) (cs.takeWhile isDecDigit) > maxUint64 := by
          rw [maxUint64_eq]; omega
        rw [if_pos this]
      · rw [if_neg hcut]
        rw [maxUint64_eq] at hcut
        have hm : (n * 10) % 2 ^ 64 = n * 10 := Nat.mod_eq_of_lt (by omega)
        simp only [hm]
        by_cases hov : n * 10 + (c.toNat - 0x30) < 2 ^ 64
        · have hm1 : (n * 10 + (c.toNat - 0x30)) % 2 ^ 64 = n * 10 + (c.toNat - 0x30) :=
            Nat.mod_eq_of_lt hov
          rw [hm1]
          have hno : ¬ (n * 10 + (c.toNat - 0x30) < n * 10
              ∨ n * 10 + (c.toNat - 0x30) > maxUint64) := by
            rw [maxUint64_eq]; omega
          rw [if_neg hno]
          exact ih _ (by rw [maxUint64_eq]; omega)
        · have hm1 : (n * 10 + (c.toNat - 0x30)) % 2 ^ 64
              = n * 10 + (c.toNat - 0x30) - 2 ^ 64 := by
            rw [Nat.mod_eq_sub_mod (by omega)]
            exact Nat.mod_eq_of_lt (by omega)
          rw [hm1]
          have hyes : n * 10 + (c.toNat - 0x30) - 2 ^ 64 < n * 10
              ∨ n * 10 + (c.toNat - 0x30) - 2 ^ 64 > maxUint64 := by
            left; omega
          rw [if_pos hyes]
          have : digitsFrom (n * 10 + (c.toNat - 0x30)) (cs.takeWhile isDecDigit) > maxUint64 := by
            rw [maxUint64_eq]; omega
          rw [if_pos this]
    · have hc : ¬ (0x30 ≤ c.toNat ∧ c.toNat ≤ 0x39) := fun h => hd ((isDecDigit_iff c).2 h)
      have hd' : ¬ isDecDigit c = true := hd
      rw [List.takeWhile_cons_of_neg hd', List.dropWhile_cons_of_neg hd']
      have h0 : ¬ digitsFrom n [] > maxUint64 := by
        show ¬ n > maxUint64
        rw [maxUint64_eq]; omega
      rw [if_neg h0, if_neg (List.cons_ne_nil c cs)]
      unfold parseUintLoop
      simp only [hc, if_false]
      split
      · rfl
      · rename_i d hdig
        split at hdig
        · simp only [Option.some.injEq] at hdig
          have : d ≥ 10 := by omega
          rw [if_pos this]
        · exact absurd hdig (by simp)

theorem toInt64_of_range (x : Int) (h1 : -(2 ^ 63) ≤ x) (h2 : x < 2 ^ 63) : toInt64 x = x := by
  unfold toInt64
  omega

theorem toInt64_two_pow : toInt64 (2 ^ 63) = -(2 ^ 63) := by decide

theorem dropWhile_nil_takeWhile {α : Type} (p : α → Bool) (l : List α)
    (h : l.dropWhile p = []) : l.takeWhile p = l := by
  have h2 := List.takeWhile_append_dropWhile p l
  rw [h, List.append_nil] at h2
  exact h2

/-- The part of `ParseInt` after the sign agrees with the reference reading. -/
theorem parseIntTail_eq (neg : Bool) (body : List Char) :
    parseIntTail neg body = readDecimal neg body := by
  unfold parseIntTail readDecimal ParseUint
  by_cases hb : body = []
  · subst hb
    simp [digitsNat, digitsFrom, maxUint64_eq]
  · simp only [hb, if_false]
    rw [parseUintLoop_eq body 0 (Nat.zero_le _)]
    by_cases hov : digitsFrom 0 (body.takeWhile isDecDigit) > maxUint64
    · have hov' : digitsNat (body.takeWhile isDecDigit) > maxUint64 := hov
      simp only [hov, hov', if_true]
      cases neg
      · simp [maxUint64_eq, toInt64_of_range]
      · simp [maxUint64_eq, toInt64_of_range]
    · have hov' : ¬ digitsNat (body.takeWhile isDecDigit) > maxUint64 := hov
      simp only [hov, hov', if_false]
      by_cases hd : body.dropWhile isDecDigit = []
      · simp only [hd, if_true, ne_eq, hb, not_false_eq_true, and_self]
        have htw := dropWhile_nil_takeWhile isDecDigit body hd
        rw [htw] at hov
        have hv : digitsFrom 0 body ≤ 18446744073709551615 := by
          rw [maxUint64_eq] at hov; omega
        show _ = if neg = true then
            (if digitsFrom 0 body ≤ 2 ^ 63 then (-(digitsFrom 0 body : Int), none)
              else (-(2 ^ 63), some NumError.ErrRange))
          else (if digitsFrom 0 body < 2 ^ 63 then ((digitsFrom 0 body : Int), none)
              else (2 ^ 63 - 1, some NumError.ErrRange))
        generalize digitsFrom 0 body = v at hv
        have e1 : toInt64 9223372036854775807 = 9223372036854775807 := by decide
        have e2 : toInt64 (-9223372036854775808) = -9223372036854775808 := by decide
        have e3 : toInt64 9223372036854775808 = -9223372036854775808 := by decide
        cases neg
        · by_cases h63 : v < 9223372036854775808
          · have h1 : ¬ (9223372036854775808 ≤ v) := by omega
            have h2 : toInt64 (v : Int) = v := toInt64_of_range _ (by omega) (by omega)
            simp [h1, h63, h2]
          · have h1 : 9223372036854775808 ≤ v := by omega
            simp [h1, h63, e1]
        · by_cases h63 : v ≤ 9223372036854775808
          · have h1 : ¬ (9223372036854775808 < v) := by omega
            by_cases heq : v = 9223372036854775808
            · subst heq
              simp [e3, e2]
            · have h2 : toInt64 (v : Int) = v := toInt64_of_range _ (by omega) (by omega)
              have h3 : toInt64 (-(v : Int)) = -(v : Int) :=
                toInt64_of_range _ (by omega) (by omega)
              simp [h1, h63, h2, h3]
          · have h1 : 9223372036854775808 < v := by omega
            simp [h1, h63, e2]
      · simp [hd]

theorem dropWhile_cons_eq_nil {α : Type} (p : α → Bool) (c : α) (cs : List α)
    (h : (c :: cs).dropWhile p = []) : p c = true ∧ cs.dropWhile p = [] := by
  cases hc : p c with
  | false => rw [List.dropWhile_cons_of_neg (by simp [hc])] at h; exact absurd h (by simp)
  | true => rw [List.dropWhile_cons_of_pos hc] at h; exact ⟨rfl, h⟩

/-- The fast loop of `Atoi` on a run of digits whose value fits: no wrap-around
happens and the value is the number denoted. -/
theorem atoiFastLoop_digits (s : List Char) (m : Nat) (hall : s.dropWhile isDecDigit = [])
    (hb : digitsFrom m s < 2 ^ 63) :
    atoiFastLoop s (m : Int) = (((digitsFrom m s : Nat) : Int), none) := by
  induction s generalizing m with
  | nil => rfl
  | cons c cs ih =>
    obtain ⟨hc, hcs⟩ := dropWhile_cons_eq_nil isDecDigit c cs hall
    have hd := (isDecDigit_iff c).1 hc
    rw [digitsFrom_cons] at hb ⊢
    have hle := le_digitsFrom cs (m * 10 + (c.toNat - 0x30))
    unfold atoiFastLoop
    rw [if_pos hd]
    have h1 : toInt64 ((m : Int) * 10) = (m : Int) * 10 :=
      toInt64_of_range _ (by omega) (by omega)
    have h2 : toInt64 ((m : Int) * 10 + ((c.toNat - 0x30 : Nat) : Int))
        = ((m * 10 + (c.toNat - 0x30) : Nat) : Int) := by
      rw [toInt64_of_range _ (by omega) (by omega)]
      push_cast
      rfl
    rw [h1, h2]
    exact ih _ hcs hb

/-- The fast loop of `Atoi` on a text that holds a rune other than a digit. -/
theorem atoiFastLoop_garbage (s : List Char) (n : Int) (h : s.dropWhile isDecDigit ≠ []) :
    atoiFastLoop s n = (0, some .ErrSyntax) := by
  induction s generalizing n with
  | nil => exact absurd rfl h
  | cons c cs ih =>
    unfold atoiFastLoop
    by_cases hc : isDecDigit c = true
    · rw [if_pos ((isDecDigit_iff c).1 hc)]
      rw [List.dropWhile_cons_of_pos hc] at h
      exact ih _ h
    · rw [if_neg (fun hd => hc ((isDecDigit_iff c).2 hd))]

theorem length_le_byteLen (s : List Char) : s.length ≤ byteLen s := by
  induction s with
  | nil => exact Nat.le_refl 0
  | cons c cs ih =>
    have h1 : 1 ≤ runeLen c := by
      unfold runeLen
      split
      · exact Nat.le_refl 1
      · split
        · decide
        · split <;> decide
    have h2 : byteLen (c :: cs) = runeLen c + byteLen cs := by simp [byteLen]
    rw [h2, List.length_cons]
    omega

/-- The digits of a short text denote a number below `10 ^ 18`. -/
theorem digitsNat_short (body : List Char) (hlen : body.length ≤ 18) :
    digitsNat (body.takeWhile isDecDigit) < 10 ^ 18 := by
  have h1 := digitsFrom_lt (body.takeWhile isDecDigit) 0 (fun c hc => List.mem_takeWhile_imp hc)
  have h2 : (body.takeWhile isDecDigit).length ≤ 18 :=
    Nat.le_trans (List.takeWhile_sublist isDecDigit).length_le hlen
  have h3 : 10 ^ (body.takeWhile isDecDigit).length ≤ 10 ^ 18 :=
    Nat.pow_le_pow_right (by decide) h2
  unfold digitsNat
  omega

/-- The reference reading of a short text: no range error is possible. -/
theorem readDecimal_short (neg : Bool) (body : List Char) (hne : body ≠ [])
    (hlen : body.length ≤ 18) :
    readDecimal neg body =
      if body.dropWhile isDecDigit = [] then
        (if neg then -(digitsNat body : Int) else (digitsNat body : Int), none)
      else (0, some .ErrSyntax) := by
  have hlead := digitsNat_short body hlen
  have e18 : (10 : Nat) ^ 18 = 1000000000000000000 := by norm_num
  rw [e18] at hlead
  unfold readDecimal
  have h1 : ¬ digitsNat (body.takeWhile isDecDigit) > maxUint64 := by
    rw [maxUint64_eq]; omega
  rw [if_neg h1]
  by_cases hd : body.dropWhile isDecDigit = []
  · rw [dropWhile_nil_takeWhile isDecDigit body hd] at hlead
    have h2 : digitsNat body ≤ 2 ^ 63 := by omega
    have h3 : digitsNat body < 2 ^ 63 := by omega
    rw [if_pos ⟨hne, hd⟩, if_pos hd, if_pos h2, if_pos h3]
    cases neg <;> rfl
  · rw [if_neg (fun h => hd h.2), if_neg hd]

/-- The fast loop of `Atoi` on a short text. -/
theorem atoiFastLoop_short (body : List Char) (hlen : body.length ≤ 18) :
    atoiFastLoop body 0 =
      if body.dropWhile isDecDigit = [] then ((digitsNat body : Int), none)
      else (0, some .ErrSyntax) := by
  by_cases hd : body.dropWhile isDecDigit = []
  · rw [if_pos hd]
    have hlead := digitsNat_short body hlen
    rw [dropWhile_nil_takeWhile isDecDigit body hd] at hlead
    have e18 : (10 : Nat) ^ 18 = 1000000000000000000 := by norm_num
    rw [e18] at hlead
    have h := atoiFastLoop_digits body 0 hd (by unfold digitsNat at hlead; omega)
    exact h
  · rw [if_neg hd]
    exact atoiFastLoop_garbage body 0 hd

/-- `strconv.Atoi` agrees with the reference reading on every text. -/
theorem atoiRunes_eq (s : List Char) :
    atoiRunes s = readDecimal (numeralNeg s) (numeralBody s) := by
  unfold atoiRunes
  by_cases hfast : 0 < byteLen s ∧ byteLen s < 19
  · rw [if_pos hfast]
    cases s with
    | nil => exact absurd hfast.1 (by decide)
    | cons c cs =>
      have hlen : (c :: cs).length ≤ 18 := by
        have := length_le_byteLen (c :: cs)
        omega
      have hlen2 : cs.length ≤ 18 := by
        rw [List.length_cons] at hlen
        omega
      simp only
      by_cases hsign : c = '-' ∨ c = '+'
      · have hsign' : c = '+' ∨ c = '-' := hsign.symm
        have hbody : numeralBody (c :: cs) = cs := by
          show (if c = '+' ∨ c = '-' then cs else c :: cs) = cs
          rw [if_pos hsign']
        rw [if_pos hsign, hbody]
        by_cases hcs : cs = []
        · subst hcs
          rw [if_pos rfl]
          unfold readDecimal
          simp [digitsNat, digitsFrom, maxUint64_eq]
        · rw [if_neg hcs, readDecimal_short _ cs hcs hlen2, atoiFastLoop_short cs hlen2]
          by_cases hd : cs.dropWhile isDecDigit = []
          · simp only [hd, if_true, ne_eq, not_true_eq_false, if_false]
            have hv : digitsNat cs < 10 ^ 18 := by
              have := digitsNat_short cs hlen2
              rwa [dropWhile_nil_takeWhile isDecDigit cs hd] at this
            have e18 : (10 : Nat) ^ 18 = 1000000000000000000 := by norm_num
            rw [e18] at hv
            by_cases hm : c = '-'
            · have hn : numeralNeg (c :: cs) = true := by simp [numeralNeg, hm]
              rw [if_pos hm, hn, toInt64_of_range _ (by omega) (by omega)]
              rfl
            · have hn : numeralNeg (c :: cs) = false := by simp [numeralNeg, hm]
              rw [if_neg hm, hn]
              rfl
          · simp [hd]
      · have hsign' : ¬ (c = '+' ∨ c = '-') := fun h => hsign h.symm
        have hbody : numeralBody (c :: cs) = c :: cs := by
          show (if c = '+' ∨ c = '-' then cs else c :: cs) = c :: cs
          rw [if_neg hsign']
        have hn : numeralNeg (c :: cs) = false := by
          have : c ≠ '-' := fun h => hsign (Or.inl h)
          simp [numeralNeg, this]
        rw [if_neg hsign, hbody, hn, readDecimal_short _ _ (List.cons_ne_nil c cs) hlen,
          atoiFastLoop_short _ hlen]
        rfl
  · rw [if_neg hfast]
    cases s with
    | nil =>
      show (0, some NumError.ErrSyntax) = readDecimal false []
      unfold readDecimal
      simp [digitsNat, digitsFrom, maxUint64_eq]
    | cons c cs => exact parseIntTail_eq _ _

theorem isNumeral_iff (s : GoString) :
    isNumeral s = true ↔
      numeralBody s.data ≠ [] ∧ (numeralBody s.data).dropWhile isDecDigit = [] := by
  unfold isNumeral
  rw [List.dropWhile_eq_nil_iff]
  simp

/-- The value `strconv.Atoi` returns, error or not, against the reference reading
of numerals. -/
theorem Atoi_value (s : GoString) :
    (isNumeral s = true → -(2 ^ 63) ≤ numeralValue s → numeralValue s ≤ 2 ^ 63 - 1 →
        Atoi s = (numeralValue s, none))
      ∧ (isNumeral s = false → leadingDigitsNat s ≤ maxUint64 →
        Atoi s = (0, some .ErrSyntax))
      ∧ (isNumeral s = true → numeralValue s > 2 ^ 63 - 1 →
        Atoi s = (2 ^ 63 - 1, some .ErrRange))
      ∧ (isNumeral s = true → numeralValue s < -(2 ^ 63) →
        Atoi s = (-(2 ^ 63), some .ErrRange))
      ∧ (isNumeral s = false → leadingDigitsNat s > maxUint64 →
        Atoi s = (if numeralNeg s.data = true then -(2 ^ 63) else 2 ^ 63 - 1, some .ErrRange)) := by
  have hA : Atoi s = readDecimal (numeralNeg s.data) (numeralBody s.data) := atoiRunes_eq s.data
  have key : ∀ hnum : isNumeral s = true,
      Atoi s =
        if numeralNeg s.data = true then
          (if digitsNat (numeralBody s.data) ≤ 2 ^ 63
            then (-(digitsNat (numeralBody s.data) : Int), none)
            else (-(2 ^ 63), some NumError.ErrRange))
        else
          (if digitsNat (numeralBody s.data) < 2 ^ 63
            then ((digitsNat (numeralBody s.data) : Int), none)
            else (2 ^ 63 - 1, some NumError.ErrRange)) := by
    intro hnum
    have hn := (isNumeral_iff s).1 hnum
    rw [hA]
    unfold readDecimal
    rw [dropWhile_nil_takeWhile isDecDigit _ hn.2]
    by_cases hov : digitsNat (numeralBody s.data) > maxUint64
    · rw [if_pos hov]
      rw [maxUint64_eq] at hov
      have h1 : ¬ digitsNat (numeralBody s.data) ≤ 2 ^ 63 := by omega
      have h2 : ¬ digitsNat (numeralBody s.data) < 2 ^ 63 := by omega
      rw [if_neg h1, if_neg h2]
      cases numeralNeg s.data <;> rfl
    · rw [if_neg hov, if_pos hn]
  have hnot : isNumeral s = false →
      ¬ (numeralBody s.data ≠ [] ∧ (numeralBody s.data).dropWhile isDecDigit = []) := by
    intro h hn
    rw [(isNumeral_iff s).2 hn] at h
    exact absurd h (by decide)
  refine ⟨?_, ?_, ?_, ?_, ?_⟩
  · intro hnum hlo hhi
    rw [key hnum]
    unfold numeralValue at hlo hhi ⊢
    cases hneg : numeralNeg s.data
    · rw [hneg] at hlo hhi
      simp only [Bool.false_eq_true, if_false] at hlo hhi ⊢
      rw [if_pos (by omega)]
    · rw [hneg] at hlo hhi
      simp only [if_true] at hlo hhi ⊢
      rw [if_pos (by omega)]
  · intro hnum hlead
    rw [hA]
    unfold readDecimal
    unfold leadingDigitsNat at hlead
    rw [if_neg (by omega), if_neg (hnot hnum)]
  · intro hnum hhi
    rw [key hnum]
    unfold numeralValue at hhi
    cases hneg : numeralNeg s.data
    · rw [hneg] at hhi
      simp only [Bool.false_eq_true, if_false] at hhi ⊢
      rw [if_neg (by omega)]
    · rw [hneg] at hhi
      simp only [if_true] at hhi
      omega
  · intro hnum hlo
    rw [key hnum]
    unfold numeralValue at hlo
    cases hneg : numeralNeg s.data
    · rw [hneg] at hlo
      simp only [Bool.false_eq_true, if_false] at hlo
      omega
    · rw [hneg] at hlo
      simp only [if_true] at hlo ⊢
      rw [if_neg (by omega)]
  · intro hnum hlead
    rw [hA]
    unfold readDecimal
    unfold leadingDigitsNat at hlead
    rw [if_pos hlead]

theorem take_succ_set {α : Type} (l : List α) (i : Nat) (v : α) (h : i < l.length) :
    (l.set i v).take (i + 1) = l.take i ++ [v] := by
  induction l generalizing i with
  | nil => exact absurd h (Nat.not_lt_zero i)
  | cons a l ih =>
    cases i with
    | zero => rfl
    | succ i =>
      have h2 : i < l.length := Nat.lt_of_succ_lt_succ h
      show a :: (l.set i v).take (i + 1) = a :: (l.take i ++ [v])
      rw [ih i h2]

/-- The loop of `IntS` writes the value of `Atoi` for each element, in order. -/
theorem intSLoop_eq (xs : List GoString) (i : Nat) (is : List GoInt)
    (h : is.length = i + xs.length) :
    intSLoop xs i is = is.take i ++ xs.map (fun x => (Atoi x).1) := by
  induction xs generalizing i is with
  | nil =>
    have h2 : is.length ≤ i := by simp at h; omega
    simp [intSLoop, List.take_of_length_le h2]
  | cons x xs ih =>
    unfold intSLoop
    rw [ih (i + 1) (is.set i (Atoi x).1) (by simp [h]; omega)]
    rw [take_succ_set is i _ (by simp at h; omega)]
    simp

/-- With a value present, `IntS` is `Atoi` on each piece of the split value. -/
theorem IntS_present (t : Char → Char) (pfx key sep : GoString) (dv : List GoInt) (w : World)
    (h : Getenv w.env (keyNormalize t pfx key) ≠ "") :
    IntS t pfx key sep dv w
      = (Split (Getenv w.env (keyNormalize t pfx key)) sep).map (fun x => (Atoi x).1) := by
  unfold IntS
  simp only [h, ne_eq, not_false_eq_true, if_true]
  rw [intSLoop_eq _ 0 _ (by simp)]
  simp

/-! ## IntS -/

/-- C10, as stated, fails: a piece outside the integer range does not become 0.
With the raw value "1,99999999999999999999,3" and separator ",", the second
piece is a base-10 numeral that `strconv.Atoi` rejects with a range error, and
the element `IntS` stores for it is `2^63 - 1`, the value `Atoi` returns with
that error. -/
theorem IntS_counterexample :
    Getenv (singleWorld "P_L" "1,99999999999999999999,3").env (keyNormalize id "P" "L")
        = "1,99999999999999999999,3"
      ∧ Split "1,99999999999999999999,3" "," = ["1", "99999999999999999999", "3"]
      ∧ isNumeral "99999999999999999999" = true
      ∧ numeralValue "99999999999999999999" > 2 ^ 63 - 1
      ∧ (Atoi "99999999999999999999").2 = some .ErrRange
      ∧ IntS id "P" "L" "," [] (singleWorld "P_L" "1,99999999999999999999,3")
          = [1, 9223372036854775807, 3]
      ∧ IntS id "P" "L" "," [] (singleWorld "P_L" "1,99999999999999999999,3") ≠ [1, 0, 3] := by
  refine ⟨by decide, by decide, by decide, by decide, by decide, by decide, by decide⟩

/-- C10, amended: `IntS` skips no element. When the normalized key holds a
non-empty raw value, the result has exactly as many elements as the raw value
has separator-delimited pieces, and element `i` is the value `strconv.Atoi`
returns for piece `i`: the integer the piece denotes when it is a base-10
numeral within the signed 64-bit range; 0 when it is not a base-10 numeral
(the empty piece included) and its leading digits do not pass the unsigned
64-bit range; and the bound it passes, `2^63 - 1` or `-2^63`, when it is a
base-10 numeral outside the signed 64-bit range. -/
theorem IntS_elements (t : Char → Char) (pfx key sep : GoString) (dv : List GoInt)
    (w : World) (h : Getenv w.env (keyNormalize t pfx key) ≠ "") :
    (IntS t pfx key sep dv w).length
        = (Split (Getenv w.env (keyNormalize t pfx key)) sep).length
      ∧ ∀ (i : Nat) (piece : GoString),
          (Split (Getenv w.env (keyNormalize t pfx key)) sep)[i]? = some piece →
          ∃ v : GoInt, (IntS t pfx key sep dv w)[i]? = some v
            ∧ v = (Atoi piece).1
            ∧ (isNumeral piece = true → -(2 ^ 63) ≤ numeralValue piece →
                numeralValue piece ≤ 2 ^ 63 - 1 → v = numeralValue piece)
            ∧ (isNumeral piece = false → leadingDigitsNat piece ≤ maxUint64 → v = 0)
            ∧ (piece = "" → v = 0)
            ∧ (isNumeral piece = true → numeralValue piece > 2 ^ 63 - 1 → v = 2 ^ 63 - 1)
            ∧ (isNumeral piece = true → numeralValue piece < -(2 ^ 63) → v = -(2 ^ 63)) := by
  rw [IntS_present t pfx key sep dv w h]
  refine ⟨List.length_map _ _, ?_⟩
  intro i piece hp
  refine ⟨(Atoi piece).1, ?_, rfl, ?_, ?_, ?_, ?_, ?_⟩
  · rw [List.getElem?_map, hp]
    rfl
  · intro h1 h2 h3
    rw [(Atoi_value piece).1 h1 h2 h3]
  · intro h1 h2
    rw [(Atoi_value piece).2.1 h1 h2]
  · intro h1
    subst h1
    rfl
  · intro h1 h2
    rw [(Atoi_value piece).2.2.1 h1 h2]
  · intro h1 h2
    rw [(Atoi_value piece).2.2.2.1 h1 h2]

/-- C10, the witness of the claim: the raw value "1,x,3" with separator ","
gives `[1, 0, 3]`. -/
theorem IntS_elements_witness :
    Getenv (singleWorld "P_L" "1,x,3").env (keyNormalize id "P" "L") ≠ ""
      ∧ ((IntS id "P" "L" "," [] (singleWorld "P_L" "1,x,3")).length
          = (Split (Getenv (singleWorld "P_L" "1,x,3").env (keyNormalize id "P" "L")) ",").length
        ∧ ∀ (i : Nat) (piece : GoString),
          (Split (Getenv (singleWorld "P_L" "1,x,3").env (keyNormalize id "P" "L")) ",")[i]?
              = some piece →
          ∃ v : GoInt, (IntS id "P" "L" "," [] (singleWorld "P_L" "1,x,3"))[i]? = some v
            ∧ v = (Atoi piece).1
            ∧ (isNumeral piece = true → -(2 ^ 63) ≤ numeralValue piece →
                numeralValue piece ≤ 2 ^ 63 - 1 → v = numeralValue piece)
            ∧ (isNumeral piece = false → leadingDigitsNat piece ≤ maxUint64 → v = 0)
            ∧ (piece = "" → v = 0)
            ∧ (isNumeral piece = true → numeralValue piece > 2 ^ 63 - 1 → v = 2 ^ 63 - 1)
            ∧ (isNumeral piece = true → numeralValue piece < -(2 ^ 63) → v = -(2 ^ 63)))
      ∧ IntS id "P" "L" "," [] (singleWorld "P_L" "1,x,3") = [1, 0, 3] :=
  ⟨by decide, IntS_elements id "P" "L" "," [] (singleWorld "P_L" "1,x,3") (by decide),
    by decide⟩

/-! ## Int, Int64 -/

/-- `strconv.Atoi` reports no error exactly on the base-10 numerals within the
signed 64-bit range. -/
theorem Atoi_ok_iff (s : GoString) :
    (Atoi s).2 = none ↔
      isNumeral s = true ∧ -(2 ^ 63) ≤ numeralValue s ∧ numeralValue s ≤ 2 ^ 63 - 1 := by
  have hv := Atoi_value s
  constructor
  · intro h
    cases hn : isNumeral s with
    | false =>
      exfalso
      by_cases hl : leadingDigitsNat s ≤ maxUint64
      · rw [hv.2.1 hn hl] at h
        exact absurd h (by simp)
      · rw [hv.2.2.2.2 hn (by omega)] at h
        exact absurd h (by simp)
    | true =>
      refine ⟨rfl, ?_, ?_⟩
      · by_contra hlo
        rw [hv.2.2.2.1 hn (by omega)] at h
        exact absurd h (by simp)
      · by_contra hhi
        rw [hv.2.2.1 hn (by omega)] at h
        exact absurd h (by simp)
  · intro h
    rw [hv.1 h.1 h.2.1 h.2.2]

/-- `strconv.ParseInt(s, 10, 64)` agrees with the reference reading on every text. -/
theorem ParseInt_eq (s : List Char) :
    ParseInt s = readDecimal (numeralNeg s) (numeralBody s) := by
  cases s with
  | nil =>
    show (0, some NumError.ErrSyntax) = readDecimal false []
    unfold readDecimal
    simp [digitsNat, digitsFrom, maxUint64_eq]
  | cons c cs => exact parseIntTail_eq _ _

/-- `strconv.ParseInt(s, 10, 64)` and `strconv.Atoi(s)` return the same value and
the same kind of error. -/
theorem ParseInt_eq_Atoi (s : GoString) : ParseInt s.data = Atoi s := by
  rw [ParseInt_eq]
  exact (atoiRunes_eq s.data).symm

/-- With a value present, `Int` is the value of `Atoi` when there is no error and
the default otherwise. -/
theorem Int_present (t : Char → Char) (pfx key : GoString) (d : GoInt) (w : World)
    (h : Getenv w.env (keyNormalize t pfx key) ≠ "") :
    envsugar.Int t pfx key d w =
      if (Atoi (Getenv w.env (keyNormalize t pfx key))).2 = none
      then (Atoi (Getenv w.env (keyNormalize t pfx key))).1 else d := by
  unfold envsugar.Int
  simp only [h, ne_eq, not_false_eq_true, if_true]

theorem Int_absent (t : Char → Char) (pfx key : GoString) (d : GoInt) (w : World)
    (h : Getenv w.env (keyNormalize t pfx key) = "") : envsugar.Int t pfx key d w = d := by
  unfold envsugar.Int
  simp [h]

/-- C11: `Int` returns the parsed value or the default. If the normalized key
holds a non-empty value that is a base-10 numeral within the range of `int`,
`Int` returns the integer it denotes, whatever the default `d`; if the key is
unset or empty, or holds text that is not a base-10 numeral (or a numeral out
of range), `Int` returns `d`. -/
theorem Int_parsed_or_default (t : Char → Char) (pfx key : GoString) (d : GoInt) (w : World) :
    (Getenv w.env (keyNormalize t pfx key) ≠ "" →
        isNumeral (Getenv w.env (keyNormalize t pfx key)) = true →
        -(2 ^ 63) ≤ numeralValue (Getenv w.env (keyNormalize t pfx key)) →
        numeralValue (Getenv w.env (keyNormalize t pfx key)) ≤ 2 ^ 63 - 1 →
        envsugar.Int t pfx key d w = numeralValue (Getenv w.env (keyNormalize t pfx key)))
      ∧ ((w.env (keyNormalize t pfx key) = none ∨ w.env (keyNormalize t pfx key) = some "") →
        envsugar.Int t pfx key d w = d)
      ∧ (isNumeral (Getenv w.env (keyNormalize t pfx key)) = false →
        envsugar.Int t pfx key d w = d)
      ∧ (¬ (-(2 ^ 63) ≤ numeralValue (Getenv w.env (keyNormalize t pfx key))
            ∧ numeralValue (Getenv w.env (keyNormalize t pfx key)) ≤ 2 ^ 63 - 1) →
        envsugar.Int t pfx key d w = d) := by
  have hnot : ¬ (isNumeral (Getenv w.env (keyNormalize t pfx key)) = true
        ∧ -(2 ^ 63) ≤ numeralValue (Getenv w.env (keyNormalize t pfx key))
        ∧ numeralValue (Getenv w.env (keyNormalize t pfx key)) ≤ 2 ^ 63 - 1) →
      envsugar.Int t pfx key d w = d := by
    intro hn
    by_cases hg : Getenv w.env (keyNormalize t pfx key) = ""
    · exact Int_absent t pfx key d w hg
    · rw [Int_present t pfx key d w hg, if_neg (fun h => hn ((Atoi_ok_iff _).1 h))]
  refine ⟨?_, ?_, ?_, ?_⟩
  · intro hg hn hlo hhi
    rw [Int_present t pfx key d w hg, if_pos ((Atoi_ok_iff _).2 ⟨hn, hlo, hhi⟩),
      ((Atoi_value _).1 hn hlo hhi)]
  · intro h
    exact Int_absent t pfx key d w (Getenv_of_unset_or_empty _ _ h)
  · intro hn
    apply hnot
    intro h
    rw [h.1] at hn
    exact absurd hn (by decide)
  · intro hr
    exact hnot (fun h => hr h.2)

/-- C11, the witnesses of the claim: with `d = 42`, `P_N = "7"` gives 7, `P_N`
unset gives 42 and `P_N = "not-a-number"` gives 42. -/
theorem Int_parsed_or_default_witness :
    envsugar.Int id "P" "N" 42 (singleWorld "P_N" "7")
        = numeralValue (Getenv (singleWorld "P_N" "7").env (keyNormalize id "P" "N"))
      ∧ envsugar.Int id "P" "N" 42 (singleWorld "P_N" "7") = 7
      ∧ envsugar.Int id "P" "N" 42 emptyWorld = 42
      ∧ envsugar.Int id "P" "N" 42 (singleWorld "P_N" "not-a-number") = 42 :=
  ⟨(Int_parsed_or_default id "P" "N" 42 (singleWorld "P_N" "7")).1
      (by decide) (by decide) (by decide) (by decide),
    by decide,
    (Int_parsed_or_default id "P" "N" 42 emptyWorld).2.1 (Or.inl rfl),
    (Int_parsed_or_default id "P" "N" 42 (singleWorld "P_N" "not-a-number")).2.2.1
      (by decide)⟩

theorem Int64_present (t : Char → Char) (pfx key : GoString) (d : GoInt) (w : World)
    (h : Getenv w.env (keyNormalize t pfx key) ≠ "") :
    envsugar.Int64 t pfx key d w =
      if (Atoi (Getenv w.env (keyNormalize t pfx key))).2 = none
      then (Atoi (Getenv w.env (keyNormalize t pfx key))).1 else d := by
  unfold envsugar.Int64
  simp only [h, ne_eq, not_false_eq_true, if_true, ParseInt_eq_Atoi]

theorem Int64_absent (t : Char → Char) (pfx key : GoString) (d : GoInt) (w : World)
    (h : Getenv w.env (keyNormalize t pfx key) = "") : envsugar.Int64 t pfx key d w = d := by
  unfold envsugar.Int64
  simp [h]

/-- C16: `Int64` parses base-10 within the signed 64-bit range and otherwise
falls back. If the normalized key holds a base-10 numeral (optional sign
followed by digits) of an integer `n` with `-2^63 ≤ n ≤ 2^63 - 1`, `Int64`
returns `n`; if the value is unset, empty, not a base-10 numeral, or denotes
an integer outside that range, `Int64` returns the default `d`, neither a
clamped nor a wrapped value; so for "9223372036854775808". -/
theorem Int64_parsed_or_default (t : Char → Char) (pfx key : GoString) (d : GoInt)
    (w : World) :
    (∀ n : Int, Getenv w.env (keyNormalize t pfx key) ≠ "" →
        isNumeral (Getenv w.env (keyNormalize t pfx key)) = true →
        numeralValue (Getenv w.env (keyNormalize t pfx key)) = n →
        -(2 ^ 63) ≤ n → n ≤ 2 ^ 63 - 1 →
        envsugar.Int64 t pfx key d w = n)
      ∧ ((w.env (keyNormalize t pfx key) = none ∨ w.env (keyNormalize t pfx key) = some "") →
        envsugar.Int64 t pfx key d w = d)
      ∧ (isNumeral (Getenv w.env (keyNormalize t pfx key)) = false →
        envsugar.Int64 t pfx key d w = d)
      ∧ (¬ (-(2 ^ 63) ≤ numeralValue (Getenv w.env (keyNormalize t pfx key))
            ∧ numeralValue (Getenv w.env (keyNormalize t pfx key)) ≤ 2 ^ 63 - 1) →
        envsugar.Int64 t pfx key d w = d)
      ∧ envsugar.Int64 id "P" "N" d (singleWorld "P_N" "9223372036854775808") = d := by
  have hnot : ∀ w : World, ¬ (isNumeral (Getenv w.env (keyNormalize t pfx key)) = true
        ∧ -(2 ^ 63) ≤ numeralValue (Getenv w.env (keyNormalize t pfx key))
        ∧ numeralValue (Getenv w.env (keyNormalize t pfx key)) ≤ 2 ^ 63 - 1) →
      envsugar.Int64 t pfx key d w = d := by
    intro w hn
    by_cases hg : Getenv w.env (keyNormalize t pfx key) = ""
    · exact Int64_absent t pfx key d w hg
    · rw [Int64_present t pfx key d w hg, if_neg (fun h => hn ((Atoi_ok_iff _).1 h))]
  refine ⟨?_, ?_, ?_, ?_, ?_⟩
  · intro n hg hn hv hlo hhi
    subst hv
    rw [Int64_present t pfx key d w hg, if_pos ((Atoi_ok_iff _).2 ⟨hn, hlo, hhi⟩),
      ((Atoi_value _).1 hn hlo hhi)]
  · intro h
    exact Int64_absent t pfx key d w (Getenv_of_unset_or_empty _ _ h)
  · intro hn
    apply hnot
    intro h
    rw [h.1] at hn
    exact absurd hn (by decide)
  · intro hr
    exact hnot w (fun h => hr h.2)
  · have hg : Getenv (singleWorld "P_N" "9223372036854775808").env (keyNormalize id "P" "N")
        = "9223372036854775808" := by decide
    have hne : Getenv (singleWorld "P_N" "9223372036854775808").env (keyNormalize id "P" "N")
        ≠ "" := by decide
    rw [Int64_present id "P" "N" d _ hne, hg]
    have he : (Atoi "9223372036854775808").2 = some NumError.ErrRange := by decide
    rw [he]
    rfl

theorem Int64_parsed_or_default_witness :
    envsugar.Int64 id "P" "N" 5 (singleWorld "P_N" "-9223372036854775808")
        = -9223372036854775808
      ∧ envsugar.Int64 id "P" "N" 5 emptyWorld = 5
      ∧ envsugar.Int64 id "P" "N" 5 (singleWorld "P_N" "12a") = 5
      ∧ envsugar.Int64 id "P" "N" 5 (singleWorld "P_N" "-9223372036854775809") = 5 :=
  ⟨(Int64_parsed_or_default id "P" "N" 5 (singleWorld "P_N" "-9223372036854775808")).1
      (-9223372036854775808) (by decide) (by decide) (by decide) (by decide) (by decide),
    (Int64_parsed_or_default id "P" "N" 5 emptyWorld).2.1 (Or.inl rfl),
    (Int64_parsed_or_default id "P" "N" 5 (singleWorld "P_N" "12a")).2.2.1 (by decide),
    (Int64_parsed_or_default id "P" "N" 5
      (singleWorld "P_N" "-9223372036854775809")).2.2.2.1 (by decide)⟩

/-! ## StrS, IntS: the default list -/

/-- C12: the list getters treat an empty value as absent and fall back to the
default list. When the normalized key is unset (world `w1`) or holds the empty
string (world `w2`), `StrS` returns the default list if it is non-empty and
the empty list otherwise, `IntS` does the same with its default list, and the
two cases give the same result. -/
theorem list_getters_default (t : Char → Char) (pfx key sep : GoString) (w1 w2 : World)
    (h1 : w1.env (keyNormalize t pfx key) = none)
    (h2 : w2.env (keyNormalize t pfx key) = some "") :
    (∀ dv : List GoString,
        StrS t pfx key sep dv w1 = (if dv.length > 0 then dv else [])
          ∧ StrS t pfx key sep dv w2 = (if dv.length > 0 then dv else [])
          ∧ StrS t pfx key sep dv w1 = StrS t pfx key sep dv w2
          ∧ StrS t pfx key sep dv w1 = dv)
      ∧ (∀ dv : List GoInt,
        IntS t pfx key sep dv w1 = (if dv.length > 0 then dv else [])
          ∧ IntS t pfx key sep dv w2 = (if dv.length > 0 then dv else [])
          ∧ IntS t pfx key sep dv w1 = IntS t pfx key sep dv w2
          ∧ IntS t pfx key sep dv w1 = dv) := by
  have g1 := Getenv_of_unset_or_empty w1.env _ (Or.inl h1)
  have g2 := Getenv_of_unset_or_empty w2.env _ (Or.inr h2)
  constructor
  · intro dv
    have e1 : StrS t pfx key sep dv w1 = (if dv.length > 0 then dv else []) := by
      unfold StrS
      simp [g1]
    have e2 : StrS t pfx key sep dv w2 = (if dv.length > 0 then dv else []) := by
      unfold StrS
      simp [g2]
    refine ⟨e1, e2, by rw [e1, e2], ?_⟩
    rw [e1]
    cases dv <;> simp
  · intro dv
    have e1 : IntS t pfx key sep dv w1 = (if dv.length > 0 then dv else []) := by
      unfold IntS
      simp [g1]
    have e2 : IntS t pfx key sep dv w2 = (if dv.length > 0 then dv else []) := by
      unfold IntS
      simp [g2]
    refine ⟨e1, e2, by rw [e1, e2], ?_⟩
    rw [e1]
    cases dv <;> simp

/-- C12, the witness of the claim: `StrS("P", "L", ",", ["d"])` returns `["d"]`
both with `P_L` unset and with `P_L = ""`. -/
theorem list_getters_default_witness :
    emptyWorld.env (keyNormalize id "P" "L") = none
      ∧ (singleWorld "P_L" "").env (keyNormalize id "P" "L") = some ""
      ∧ StrS id "P" "L" "," ["d"] emptyWorld = ["d"]
      ∧ StrS id "P" "L" "," ["d"] (singleWorld "P_L" "") = ["d"]
      ∧ IntS id "P" "L" "," [4, 2] emptyWorld = IntS id "P" "L" "," [4, 2] (singleWorld "P_L" "") :=
  ⟨rfl, by decide,
    ((list_getters_default id "P" "L" "," emptyWorld (singleWorld "P_L" "") rfl
      (by decide)).1 ["d"]).1,
    ((list_getters_default id "P" "L" "," emptyWorld (singleWorld "P_L" "") rfl
      (by decide)).1 ["d"]).2.1,
    ((list_getters_default id "P" "L" "," emptyWorld (singleWorld "P_L" "") rfl
      (by decide)).2 [4, 2]).2.2.1⟩

/-! ## Boolloat -/

theorem Boolloat_present (t : Char → Char) (pfx key : GoString) (d : Bool) (w : World)
    (h : Getenv w.env (keyNormalize t pfx key) ≠ "") :
    envsugar.Boolloat t pfx key d w =
      if (ParseBool (Getenv w.env (keyNormalize t pfx key))).2 = none
      then (ParseBool (Getenv w.env (keyNormalize t pfx key))).1 else d := by
  unfold envsugar.Boolloat
  simp only [h, ne_eq, not_false_eq_true, if_true]

/-- C13: the boolean getter `Boolloat` returns the parsed value or the default.
When the normalized key holds one of "1", "t", "T", "TRUE", "true", "True" it
returns true, when it holds one of "0", "f", "F", "FALSE", "false", "False" it
returns false, in both cases whatever the default `d`; when the key is unset,
empty, or holds any other text, it returns `d`; `P_B = "true"` gives true and
`P_B = "maybe"` gives false with `d = false`. -/
theorem Boolloat_parsed_or_default (t : Char → Char) (pfx key : GoString) (d : Bool)
    (w : World) :
    (Getenv w.env (keyNormalize t pfx key) ∈
          ["1", "t", "T", "TRUE", "true", "True"] →
        envsugar.Boolloat t pfx key d w = true)
      ∧ (Getenv w.env (keyNormalize t pfx key) ∈
          ["0", "f", "F", "FALSE", "false", "False"] →
        envsugar.Boolloat t pfx key d w = false)
      ∧ ((w.env (keyNormalize t pfx key) = none ∨ w.env (keyNormalize t pfx key) = some "") →
        envsugar.Boolloat t pfx key d w = d)
      ∧ (Getenv w.env (keyNormalize t pfx key) ∉
          ["1", "t", "T", "TRUE", "true", "True", "0", "f", "F", "FALSE", "false", "False"] →
        envsugar.Boolloat t pfx key d w = d)
      ∧ envsugar.Boolloat id "P" "B" false (singleWorld "P_B" "true") = true
      ∧ envsugar.Boolloat id "P" "B" false (singleWorld "P_B" "maybe") = false := by
  refine ⟨?_, ?_, ?_, ?_, by decide, by decide⟩
  · intro h
    have hne : Getenv w.env (keyNormalize t pfx key) ≠ "" := by
      intro h0
      rw [h0] at h
      exact absurd h (by decide)
    rw [Boolloat_present t pfx key d w hne]
    simp only [List.mem_cons, List.mem_singleton, List.not_mem_nil, or_false] at h
    rcases h with h | h | h | h | h | h <;> rw [h] <;> rfl
  · intro h
    have hne : Getenv w.env (keyNormalize t pfx key) ≠ "" := by
      intro h0
      rw [h0] at h
      exact absurd h (by decide)
    rw [Boolloat_present t pfx key d w hne]
    simp only [List.mem_cons, List.mem_singleton, List.not_mem_nil, or_false] at h
    rcases h with h | h | h | h | h | h <;> rw [h] <;> rfl
  · intro h
    unfold envsugar.Boolloat
    simp [Getenv_of_unset_or_empty _ _ h]
  · intro h
    simp only [List.mem_cons, List.mem_singleton, List.not_mem_nil, or_false, not_or] at h
    obtain ⟨a1, a2, a3, a4, a5, a6, b1, b2, b3, b4, b5, b6⟩ := h
    unfold envsugar.Boolloat ParseBool
    simp [a1, a2, a3, a4, a5, a6, b1, b2, b3, b4, b5, b6]

theorem Boolloat_parsed_or_default_witness :
    envsugar.Boolloat id "P" "B" false (singleWorld "P_B" "T") = true
      ∧ envsugar.Boolloat id "P" "B" true (singleWorld "P_B" "0") = false
      ∧ envsugar.Boolloat id "P" "B" true emptyWorld = true
      ∧ envsugar.Boolloat id "P" "B" true (singleWorld "P_B" "maybe") = true :=
  ⟨(Boolloat_parsed_or_default id "P" "B" false (singleWorld "P_B" "T")).1 (by decide),
    (Boolloat_parsed_or_default id "P" "B" true (singleWorld "P_B" "0")).2.1 (by decide),
    (Boolloat_parsed_or_default id "P" "B" true emptyWorld).2.2.1 (Or.inl rfl),
    (Boolloat_parsed_or_default id "P" "B" true (singleWorld "P_B" "maybe")).2.2.2.1
      (by decide)⟩

/-! ## The getters are pure reads -/

/-- With a slice as long as what is left to write, no assignment of the loop of
`IntS` is out of range. -/
theorem callIntSLoop_eq (xs : List GoString) (i : Nat) (is : List GoInt)
    (h : is.length = i + xs.length) :
    callIntSLoop xs i is = some (intSLoop xs i is) := by
  induction xs generalizing i is with
  | nil => rfl
  | cons x xs ih =>
    have hi : i < is.length := by simp at h; omega
    unfold callIntSLoop intSLoop assignIndex
    rw [if_pos hi]
    exact ih (i + 1) _ (by simp [h]; omega)

/-- C14: every typed getter is a pure read that never fails. For every world
and all arguments (an empty separator or an empty key included), the calls of
`String`, `StrS`, `Int`, `Int64`, `IntS`, `Float` and `Boolloat` do not panic,
return a value, and leave the world, its environment table included, exactly
as it was; so a second call in a row returns the same value. -/
theorem getters_pure_read {F : Type} (parseFloat : GoString → F × Option NumError)
    (t : Char → Char) (pfx key sep : GoString) (w : World) :
    (∀ d : GoString, callString t pfx key d w = some (envsugar.String t pfx key d w, w))
      ∧ (∀ d : List GoString, callStrS t pfx key sep d w = some (StrS t pfx key sep d w, w))
      ∧ (∀ d : GoInt, callInt t pfx key d w = some (envsugar.Int t pfx key d w, w))
      ∧ (∀ d : GoInt, callInt64 t pfx key d w = some (envsugar.Int64 t pfx key d w, w))
      ∧ (∀ d : List GoInt, callIntS t pfx key sep d w = some (IntS t pfx key sep d w, w))
      ∧ (∀ d : F, callFloat parseFloat t pfx key d w
          = some (envsugar.Float parseFloat t pfx key d w, w))
      ∧ (∀ d : Bool, callBoolloat t pfx key d w = some (envsugar.Boolloat t pfx key d w, w))
      ∧ (∀ d : GoString, (callString t pfx key d w).bind (fun r => callString t pfx key d r.2)
          = callString t pfx key d w)
      ∧ (∀ d : List GoString,
          (callStrS t pfx key sep d w).bind (fun r => callStrS t pfx key sep d r.2)
            = callStrS t pfx key sep d w)
      ∧ (∀ d : GoInt, (callInt t pfx key d w).bind (fun r => callInt t pfx key d r.2)
          = callInt t pfx key d w)
      ∧ (∀ d : GoInt, (callInt64 t pfx key d w).bind (fun r => callInt64 t pfx key d r.2)
          = callInt64 t pfx key d w)
      ∧ (∀ d : List GoInt,
          (callIntS t pfx key sep d w).bind (fun r => callIntS t pfx key sep d r.2)
            = callIntS t pfx key sep d w)
      ∧ (∀ d : F, (callFloat parseFloat t pfx key d w).bind
            (fun r => callFloat parseFloat t pfx key d r.2)
          = callFloat parseFloat t pfx key d w)
      ∧ (∀ d : Bool, (callBoolloat t pfx key d w).bind (fun r => callBoolloat t pfx key d r.2)
          = callBoolloat t pfx key d w) := by
  have h1 : ∀ d : GoString,
      callString t pfx key d w = some (envsugar.String t pfx key d w, w) := by
    intro d
    unfold callString envsugar.String callGetenv
    by_cases hg : Getenv w.env (keyNormalize t pfx key) = "" <;> simp [hg]
  have h2 : ∀ d : List GoString,
      callStrS t pfx key sep d w = some (StrS t pfx key sep d w, w) := by
    intro d
    unfold callStrS StrS callGetenv
    by_cases hg : Getenv w.env (keyNormalize t pfx key) = ""
    · by_cases hd : d.length > 0 <;> simp [hg, hd]
    · simp [hg]
  have h3 : ∀ d : GoInt, callInt t pfx key d w = some (envsugar.Int t pfx key d w, w) := by
    intro d
    unfold callInt envsugar.Int callGetenv
    by_cases hg : Getenv w.env (keyNormalize t pfx key) = ""
    · simp [hg]
    · by_cases he : (Atoi (Getenv w.env (keyNormalize t pfx key))).2 = none <;> simp [hg, he]
  have h4 : ∀ d : GoInt, callInt64 t pfx key d w = some (envsugar.Int64 t pfx key d w, w) := by
    intro d
    unfold callInt64 envsugar.Int64 callGetenv
    by_cases hg : Getenv w.env (keyNormalize t pfx key) = ""
    · simp [hg]
    · by_cases he : (ParseInt (Getenv w.env (keyNormalize t pfx key)).data).2 = none <;>
        simp [hg, he]
  have h5 : ∀ d : List GoInt,
      callIntS t pfx key sep d w = some (IntS t pfx key sep d w, w) := by
    intro d
    unfold callIntS IntS callGetenv
    by_cases hg : Getenv w.env (keyNormalize t pfx key) = ""
    · by_cases hd : d.length > 0 <;> simp [hg, hd]
    · simp only [hg, ne_eq, not_false_eq_true, if_true]
      rw [callIntSLoop_eq _ 0 _ (by simp)]
  have h6 : ∀ d : F, callFloat parseFloat t pfx key d w
      = some (envsugar.Float parseFloat t pfx key d w, w) := by
    intro d
    unfold callFloat envsugar.Float callGetenv
    by_cases hg : Getenv w.env (keyNormalize t pfx key) = ""
    · simp [hg]
    · by_cases he : (parseFloat (Getenv w.env (keyNormalize t pfx key))).2 = none <;>
        simp [hg, he]
  have h7 : ∀ d : Bool,
      callBoolloat t pfx key d w = some (envsugar.Boolloat t pfx key d w, w) := by
    intro d
    unfold callBoolloat envsugar.Boolloat callGetenv
    by_cases hg : Getenv w.env (keyNormalize t pfx key) = ""
    · simp [hg]
    · by_cases he : (ParseBool (Getenv w.env (keyNormalize t pfx key))).2 = none <;>
        simp [hg, he]
  refine ⟨h1, h2, h3, h4, h5, h6, h7, ?_, ?_, ?_, ?_, ?_, ?_, ?_⟩
  · intro d; rw [h1 d]; exact h1 d
  · intro d; rw [h2 d]; exact h2 d
  · intro d; rw [h3 d]; exact h3 d
  · intro d; rw [h4 d]; exact h4 d
  · intro d; rw [h5 d]; exact h5 d
  · intro d; rw [h6 d]; exact h6 d
  · intro d; rw [h7 d]; exact h7 d

/-! ## String -/

/-- C15: `String` is the identity on present values with fallback to the
default. It returns the raw value stored under `keyNormalize(prefix, key)` when
that value is non-empty and the default `d` otherwise; hence it returns the
empty string only when `d` is empty, and a variable set to "" is not told from
an unset one. -/
theorem String_identity_or_default (t : Char → Char) (pfx key d : GoString) (w : World) :
    (Getenv w.env (keyNormalize t pfx key) ≠ "" →
        envsugar.String t pfx key d w = Getenv w.env (keyNormalize t pfx key)
          ∧ w.env (keyNormalize t pfx key) = some (envsugar.String t pfx key d w))
      ∧ (Getenv w.env (keyNormalize t pfx key) = "" → envsugar.String t pfx key d w = d)
      ∧ ((w.env (keyNormalize t pfx key) = none ∨ w.env (keyNormalize t pfx key) = some "") →
        envsugar.String t pfx key d w = d)
      ∧ (envsugar.String t pfx key d w = "" → d = "")
      ∧ (∀ (env : Env) (out1 out2 : List Output),
        envsugar.String t pfx key d
            ⟨fun k => if k = keyNormalize t pfx key then some "" else env k, out1⟩
          = envsugar.String t pfx key d
            ⟨fun k => if k = keyNormalize t pfx key then none else env k, out2⟩) := by
  have hp : Getenv w.env (keyNormalize t pfx key) ≠ "" →
      envsugar.String t pfx key d w = Getenv w.env (keyNormalize t pfx key) := by
    intro h
    unfold envsugar.String
    simp [h]
  have ha : ∀ w : World, Getenv w.env (keyNormalize t pfx key) = "" →
      envsugar.String t pfx key d w = d := by
    intro w h
    unfold envsugar.String
    simp [h]
  refine ⟨fun h => ⟨hp h, ?_⟩, ha w, fun h => ha w (Getenv_of_unset_or_empty _ _ h), ?_, ?_⟩
  · rw [hp h]
    exact (Getenv_ne_empty _ _ h).2
  · intro h
    by_cases hg : Getenv w.env (keyNormalize t pfx key) = ""
    · rw [ha w hg] at h
      exact h
    · rw [hp hg] at h
      exact absurd h hg
  · intro env out1 out2
    rw [ha _ (Getenv_of_unset_or_empty _ _ (Or.inr (by simp))),
      ha _ (Getenv_of_unset_or_empty _ _ (Or.inl (by simp)))]

theorem String_identity_or_default_witness :
    (envsugar.String id "p" "k" "d" (singleWorld "P_K" "v")
          = Getenv (singleWorld "P_K" "v").env (keyNormalize id "p" "k")
        ∧ (singleWorld "P_K" "v").env (keyNormalize id "p" "k")
          = some (envsugar.String id "p" "k" "d" (singleWorld "P_K" "v")))
      ∧ envsugar.String id "p" "k" "d" (singleWorld "P_K" "v") = "v"
      ∧ envsugar.String id "p" "k" "d" (singleWorld "P_K" "") = "d"
      ∧ envsugar.String id "p" "k" "d" emptyWorld = "d" :=
  ⟨(String_identity_or_default id "p" "k" "d" (singleWorld "P_K" "v")).1 (by decide),
    by decide,
    (String_identity_or_default id "p" "k" "d" (singleWorld "P_K" "")).2.1 (by decide),
    (String_identity_or_default id "p" "k" "d" emptyWorld).2.2.1 (Or.inl rfl)⟩

/-! ## CheckMany is not atomic, Check is idempotent -/

/-- A failing `Check` leaves the environment table as it was. -/
theorem Check_error_env (t : Char → Char) (pfx key dv : GoString) (req lp : Bool) (w : World)
    (err : GoError) (h : (Check t pfx key dv req lp w).1 = some err) :
    (Check t pfx key dv req lp w).2.env = w.env := by
  by_cases hg : Getenv w.env (keyNormalize t pfx key) = ""
  · by_cases hd : dv = ""
    · subst hd
      exact (Check_absent_nodefault t pfx key req lp w hg).2
    · cases ha : setenvAccepts (keyNormalize t pfx key) dv
      · exact ((Check_absent_default t pfx key dv req lp w hg hd).2 ha).2
      · rw [((Check_absent_default t pfx key dv req lp w hg hd).1 ha).1] at h
        exact absurd h (by simp)
  · exact (Check_present t pfx key dv req lp w hg).2

/-- The result of `CheckMany` when directive `i` is the first that fails. -/
theorem CheckMany_at_first_error (t : Char → Char) (pfx : GoString) (lp : Bool)
    (ds : List Directives) (w : World) (i : Nat) (d : Directives) (err : GoError)
    (hd : ds[i]? = some d)
    (hpass : ∀ (j : Nat) (dj : Directives), j < i → ds[j]? = some dj →
      (checkDirective t pfx lp dj (checkFold t pfx lp (ds.take j) w)).1 = none)
    (hfail : (checkDirective t pfx lp d (checkFold t pfx lp (ds.take i) w)).1 = some err) :
    CheckMany t pfx ds lp w
      = (some err, (checkDirective t pfx lp d (checkFold t pfx lp (ds.take i) w)).2) := by
  induction ds generalizing w i with
  | nil => simp at hd
  | cons d0 ds ih =>
    cases i with
    | zero =>
      simp only [List.getElem?_cons_zero, Option.some.injEq] at hd
      subst hd
      exact CheckMany_cons_of_error t pfx lp d0 ds w err hfail
    | succ i =>
      have h0 : (checkDirective t pfx lp d0 w).1 = none :=
        hpass 0 d0 (Nat.succ_pos i) List.getElem?_cons_zero
      rw [CheckMany_cons_of_ok t pfx lp d0 ds w h0]
      refine ih (checkDirective t pfx lp d0 w).2 i (by simpa using hd) ?_ hfail
      intro j dj hj hdj
      exact hpass (j + 1) dj (Nat.succ_lt_succ hj) (by simpa using hdj)

/-- C17: `CheckMany` is not atomic. When it fails at the directive with index
`i`, the environment table is not restored: it is the table obtained by
running `Check` on the directives `0..i-1` in order, so the defaults injected
by earlier directives persist. With `[A(default "X", unset),
B(required, unset, no default)]` `CheckMany` returns an error and yet the
table has changed: the key of `A` now holds "X". -/
theorem CheckMany_not_atomic :
    (∀ (t : Char → Char) (pfx : GoString) (lp : Bool) (ds : List Directives) (w : World)
        (i : Nat) (d : Directives) (err : GoError),
        ds[i]? = some d →
        (∀ (j : Nat) (dj : Directives), j < i → ds[j]? = some dj →
          (checkDirective t pfx lp dj (checkFold t pfx lp (ds.take j) w)).1 = none) →
        (checkDirective t pfx lp d (checkFold t pfx lp (ds.take i) w)).1 = some err →
        (CheckMany t pfx ds lp w).1 = some err
          ∧ (CheckMany t pfx ds lp w).2.env = (checkFold t pfx lp (ds.take i) w).env)
      ∧ ((CheckMany id "" [⟨"A", false, "X"⟩, ⟨"B", true, ""⟩] false emptyWorld).1
            = some (.errorString "required but not set")
        ∧ emptyWorld.env (keyNormalize id "" "A") = none
        ∧ (CheckMany id "" [⟨"A", false, "X"⟩, ⟨"B", true, ""⟩] false emptyWorld).2.env
            (keyNormalize id "" "A") = some "X"
        ∧ (CheckMany id "" [⟨"A", false, "X"⟩, ⟨"B", true, ""⟩] false emptyWorld).2.env
            ≠ emptyWorld.env) := by
  refine ⟨?_, rfl, rfl, rfl, ?_⟩
  · intro t pfx lp ds w i d err hd hpass hfail
    rw [CheckMany_at_first_error t pfx lp ds w i d err hd hpass hfail]
    exact ⟨rfl, Check_error_env t pfx d.Name d.DefaultValue d.Required lp _ err hfail⟩
  · intro h
    have h2 := congrFun h (keyNormalize id "" "A")
    have h3 : (some "X" : Option GoString) = none := h2
    exact Option.noConfusion h3

theorem CheckMany_not_atomic_witness :
    (CheckMany id "p" [⟨"a", false, "1"⟩, ⟨"b", false, "2"⟩, ⟨"c", true, ""⟩] false emptyWorld).1
        = some (.errorString "required but not set")
      ∧ (CheckMany id "p" [⟨"a", false, "1"⟩, ⟨"b", false, "2"⟩, ⟨"c", true, ""⟩] false
          emptyWorld).2.env
        = (checkFold id "p" false
            (List.take 2 [⟨"a", false, "1"⟩, ⟨"b", false, "2"⟩, ⟨"c", true, ""⟩])
            emptyWorld).env :=
  CheckMany_not_atomic.1 id "p" false
    [⟨"a", false, "1"⟩, ⟨"b", false, "2"⟩, ⟨"c", true, ""⟩] emptyWorld 2 ⟨"c", true, ""⟩
    (.errorString "required but not set") rfl
    (fun j dj hj hdj => by
      match j, hj with
      | 0, _ =>
        simp only [List.getElem?_cons_zero, Option.some.injEq] at hdj
        subst hdj
        rfl
      | 1, _ =>
        simp only [List.getElem?_cons_succ, List.getElem?_cons_zero, Option.some.injEq] at hdj
        subst hdj
        rfl)
    rfl

/-- C18: `Check` is idempotent. Running `Check` twice in a row with the same
arguments returns, on the second run, the same success or error as the first
run, and leaves the environment table equal to the table after the first
run. -/
theorem Check_idempotent (t : Char → Char) (pfx key dv : GoString) (req lp : Bool)
    (w : World) :
    (Check t pfx key dv req lp (Check t pfx key dv req lp w).2).1
        = (Check t pfx key dv req lp w).1
      ∧ (Check t pfx key dv req lp (Check t pfx key dv req lp w).2).2.env
        = (Check t pfx key dv req lp w).2.env := by
  by_cases hg : Getenv w.env (keyNormalize t pfx key) = ""
  · by_cases hd : dv = ""
    · subst hd
      have h1 := Check_absent_nodefault t pfx key req lp w hg
      have hg2 : Getenv (Check t pfx key "" req lp w).2.env (keyNormalize t pfx key) = "" := by
        rw [h1.2]; exact hg
      have h2 := Check_absent_nodefault t pfx key req lp _ hg2
      exact ⟨by rw [h2.1, h1.1], h2.2⟩
    · cases ha : setenvAccepts (keyNormalize t pfx key) dv
      · have h1 := (Check_absent_default t pfx key dv req lp w hg hd).2 ha
        have hg2 : Getenv (Check t pfx key dv req lp w).2.env (keyNormalize t pfx key) = "" := by
          rw [h1.2]; exact hg
        have h2 := (Check_absent_default t pfx key dv req lp _ hg2 hd).2 ha
        exact ⟨by rw [h2.1, h1.1], h2.2⟩
      · have h1 := (Check_absent_default t pfx key dv req lp w hg hd).1 ha
        have hne : keyNormalize t pfx key ≠ "" := by
          unfold setenvAccepts at ha
          simp only [Bool.and_eq_true, decide_eq_true_eq] at ha
          exact ha.1.1
        have hg2 : Getenv (Check t pfx key dv req lp w).2.env (keyNormalize t pfx key) ≠ "" := by
          rw [h1.2]
          unfold Getenv
          simp [hne, hd]
        have h2 := Check_present t pfx key dv req lp _ hg2
        exact ⟨by rw [h2.1, h1.1], h2.2⟩
  · have h1 := Check_present t pfx key dv req lp w hg
    have hg2 : Getenv (Check t pfx key dv req lp w).2.env (keyNormalize t pfx key) ≠ "" := by
      rw [h1.2]; exact hg
    have h2 := Check_present t pfx key dv req lp _ hg2
    exact ⟨by rw [h2.1, h1.1], h2.2⟩

/-! ## StrS: splitting loses nothing -/

/-- The test `HasPrefix` on code points: `sep` starts `s` exactly when `s` is
`sep` followed by something. -/
theorem isPrefixOf_iff_append (sep s : List Char) :
    sep.isPrefixOf s = true ↔ ∃ b : List Char, s = sep ++ b := by
  induction sep generalizing s with
  | nil => simp [List.isPrefixOf]
  | cons a sep ih =>
    cases s with
    | nil => simp [List.isPrefixOf]
    | cons c cs =>
      simp only [List.isPrefixOf, Bool.and_eq_true, beq_iff_eq, ih cs, List.cons_append,
        List.cons.injEq]
      constructor
      · rintro ⟨rfl, b, hb⟩
        exact ⟨b, rfl, hb⟩
      · rintro ⟨b, rfl, hb⟩
        exact ⟨rfl, b, hb⟩

/-- Where `Index` finds the separator: the text is what precedes the position,
the separator, and what follows it, and no instance starts earlier. -/
theorem indexRunes_some (sep : List Char) (hsep : sep ≠ []) (s : List Char) (m : Nat)
    (h : indexRunes sep s = some m) :
    s = s.take m ++ sep ++ s.drop (m + sep.length)
      ∧ ∀ a b : List Char, s = a ++ sep ++ b → m ≤ a.length := by
  induction s generalizing m with
  | nil =>
    unfold indexRunes at h
    rw [if_neg hsep] at h
    exact absurd h (by simp)
  | cons c cs ih =>
    unfold indexRunes at h
    by_cases hp : sep.isPrefixOf (c :: cs) = true
    · rw [if_pos hp] at h
      have hm : m = 0 := by
        injection h with h
        exact h.symm
      subst hm
      obtain ⟨b, hb⟩ := (isPrefixOf_iff_append sep (c :: cs)).1 hp
      refine ⟨?_, fun a b _ => Nat.zero_le _⟩
      rw [hb]
      simp
    · rw [if_neg hp] at h
      cases hi : indexRunes sep cs with
      | none => rw [hi] at h; exact absurd h (by simp)
      | some m0 =>
        rw [hi] at h
        have hm : m = m0 + 1 := by
          simp only [Option.map_some', Option.some.injEq] at h
          exact h.symm
        subst hm
        obtain ⟨h1, h2⟩ := ih m0 hi
        constructor
        · have e : m0 + 1 + sep.length = (m0 + sep.length) + 1 := by omega
          rw [e, List.take_succ_cons, List.drop_succ_cons]
          simp only [List.cons_append, List.cons.injEq, true_and]
          exact h1
        · intro a b hab
          cases a with
          | nil =>
            exfalso
            apply hp
            exact (isPrefixOf_iff_append sep (c :: cs)).2 ⟨b, by simpa using hab⟩
          | cons a0 a1 =>
            simp only [List.cons_append, List.cons.injEq] at hab
            have := h2 a1 b hab.2
            simp only [List.length_cons]
            omega

/-- Where `Index` finds nothing, the text holds no instance of the separator. -/
theorem indexRunes_none (sep : List Char) (hsep : sep ≠ []) (s : List Char)
    (h : indexRunes sep s = none) : ∀ a b : List Char, s ≠ a ++ sep ++ b := by
  induction s with
  | nil =>
    intro a b hab
    have hl := congrArg List.length hab
    simp only [List.length_nil, List.length_append] at hl
    have : 0 < sep.length := List.length_pos.2 hsep
    omega
  | cons c cs ih =>
    unfold indexRunes at h
    by_cases hp : sep.isPrefixOf (c :: cs) = true
    · rw [if_pos hp] at h
      exact absurd h (by simp)
    · rw [if_neg hp] at h
      have hi : indexRunes sep cs = none := by
        cases hi : indexRunes sep cs with
        | none => rfl
        | some m0 => rw [hi] at h; exact absurd h (by simp)
      intro a b hab
      cases a with
      | nil =>
        apply hp
        exact (isPrefixOf_iff_append sep (c :: cs)).2 ⟨b, by simpa using hab⟩
      | cons a0 a1 =>
        simp only [List.cons_append, List.cons.injEq] at hab
        exact ih hi a1 b hab.2

/-- A text that holds no instance of the separator: `Index` finds nothing. -/
theorem indexRunes_eq_none (sep : List Char) (hsep : sep ≠ []) (s : List Char)
    (h : ∀ a b : List Char, s ≠ a ++ sep ++ b) : indexRunes sep s = none := by
  cases hi : indexRunes sep s with
  | none => rfl
  | some m => exact absurd (indexRunes_some sep hsep s m hi).1 (h _ _)

theorem joinRunes_cons (sep x : List Char) (r : List (List Char)) (hr : r ≠ []) :
    joinRunes sep (x :: r) = x ++ sep ++ joinRunes sep r := by
  cases r with
  | nil => exact absurd rfl hr
  | cons y ys => rfl

/-- The loop of `Split`, given enough rounds: the pieces are not none, joined
with the separator they give the text back, and no piece holds the
separator. -/
theorem genSplitLoop_spec (sep : List Char) (hsep : sep ≠ []) (n : Nat) (s : List Char)
    (hn : s.length ≤ n) :
    genSplitLoop sep n s ≠ []
      ∧ joinRunes sep (genSplitLoop sep n s) = s
      ∧ ∀ e ∈ genSplitLoop sep n s, ∀ a b : List Char, e ≠ a ++ sep ++ b := by
  have hpos : 0 < sep.length := List.length_pos.2 hsep
  induction n generalizing s with
  | zero =>
    have hs : s = [] := List.length_eq_zero.1 (Nat.le_zero.1 hn)
    subst hs
    refine ⟨by simp [genSplitLoop], rfl, ?_⟩
    intro e he a b hab
    simp only [genSplitLoop, List.mem_singleton] at he
    subst he
    have hl := congrArg List.length hab
    simp only [List.length_nil, List.length_append] at hl
    omega
  | succ n ih =>
    unfold genSplitLoop
    cases hi : indexRunes sep s with
    | none =>
      refine ⟨by simp, rfl, ?_⟩
      intro e he
      simp only [List.mem_singleton] at he
      subst he
      exact indexRunes_none sep hsep e hi
    | some m =>
      obtain ⟨hdec, hmin⟩ := indexRunes_some sep hsep s m hi
      have hlen : (s.drop (m + sep.length)).length ≤ n := by
        rw [List.length_drop]
        omega
      obtain ⟨h1, h2, h3⟩ := ih (s.drop (m + sep.length)) hlen
      refine ⟨by simp, ?_, ?_⟩
      · show joinRunes sep (s.take m :: genSplitLoop sep n (s.drop (m + sep.length))) = s
        rw [joinRunes_cons sep _ _ h1, h2]
        exact hdec.symm
      · intro e he
        rcases List.mem_cons.1 he with he | he
        · subst he
          intro a b hab
          have hle : m ≤ a.length := by
            apply hmin a (b ++ sep ++ s.drop (m + sep.length))
            conv_lhs => rw [hdec, hab]
            simp [List.append_assoc]
          have hl := congrArg List.length hab
          simp only [List.length_append, List.length_take] at hl
          have : min m s.length ≤ m := Nat.min_le_left _ _
          omega
        · exact h3 e he

/-- With a value present, `StrS` is the split value. -/
theorem StrS_present (t : Char → Char) (pfx key sep : GoString) (dv : List GoString)
    (w : World) (hsep : sep ≠ "") (h : Getenv w.env (keyNormalize t pfx key) ≠ "") :
    StrS t pfx key sep dv w
      = (genSplitLoop sep.data (Getenv w.env (keyNormalize t pfx key)).data.length
          (Getenv w.env (keyNormalize t pfx key)).data).map String.mk := by
  have hs : sep.data ≠ [] := fun h0 => hsep ((GoString_eq_empty_iff sep).2 h0)
  unfold StrS Split splitRunes
  simp only [h, ne_eq, not_false_eq_true, if_true, hs, if_false]

/-- C19: `StrS` loses no information when splitting. For a non-empty separator,
when the normalized key holds a non-empty raw value, the result of `StrS` is a
non-empty list, none of its elements contains the separator, and joining its
elements with the separator gives back exactly the raw value; so a raw value
without the separator yields the one-element list `[raw]`. -/
theorem StrS_lossless (t : Char → Char) (pfx key sep : GoString) (dv : List GoString)
    (w : World) (hsep : sep ≠ "") (h : Getenv w.env (keyNormalize t pfx key) ≠ "") :
    StrS t pfx key sep dv w ≠ []
      ∧ (∀ e ∈ StrS t pfx key sep dv w,
          Contains e sep = false ∧ ∀ a b : List Char, e.data ≠ a ++ sep.data ++ b)
      ∧ Join (StrS t pfx key sep dv w) sep = Getenv w.env (keyNormalize t pfx key)
      ∧ (Contains (Getenv w.env (keyNormalize t pfx key)) sep = false →
          StrS t pfx key sep dv w = [Getenv w.env (keyNormalize t pfx key)]) := by
  have hs : sep.data ≠ [] := fun h0 => hsep ((GoString_eq_empty_iff sep).2 h0)
  have hraw : (Getenv w.env (keyNormalize t pfx key)).data ≠ [] :=
    fun h0 => h ((GoString_eq_empty_iff _).2 h0)
  rw [StrS_present t pfx key sep dv w hsep h]
  generalize Getenv w.env (keyNormalize t pfx key) = raw at hraw ⊢
  obtain ⟨h1, h2, h3⟩ := genSplitLoop_spec sep.data hs raw.data.length raw.data (Nat.le_refl _)
  refine ⟨?_, ?_, ?_, ?_⟩
  · intro h0
    exact h1 (List.map_eq_nil_iff.1 h0)
  · intro e he
    obtain ⟨x, hx, rfl⟩ := List.mem_map.1 he
    have hno : ∀ a b : List Char, x ≠ a ++ sep.data ++ b := h3 x hx
    refine ⟨?_, hno⟩
    show (indexRunes sep.data x).isSome = false
    rw [indexRunes_eq_none sep.data hs x hno]
    rfl
  · apply String.ext
    show joinRunes sep.data
        ((List.map String.mk (genSplitLoop sep.data raw.data.length raw.data)).map String.data)
      = raw.data
    rw [List.map_map]
    have hid : (String.data ∘ String.mk) = id := rfl
    rw [hid, List.map_id]
    exact h2
  · intro hc
    have hn : indexRunes sep.data raw.data = none := by
      have hc2 : (indexRunes sep.data raw.data).isSome = false := hc
      cases hi : indexRunes sep.data raw.data with
      | none => rfl
      | some m => rw [hi] at hc2; exact absurd hc2 (by simp)
    obtain ⟨n, hlen⟩ : ∃ n, raw.data.length = n + 1 :=
      Nat.exists_eq_succ_of_ne_zero (fun h0 => hraw (List.length_eq_zero.1 h0))
    rw [hlen]
    unfold genSplitLoop
    rw [hn]
    rfl

/-- C19, witnesses: "a,,b" split at "," gives `["a", "", "b"]` (adjacent
separators yield an empty element), and "abc" gives `["abc"]`. -/
theorem StrS_lossless_witness :
    (StrS id "P" "L" "," [] (singleWorld "P_L" "a,,b") ≠ []
        ∧ (∀ e ∈ StrS id "P" "L" "," [] (singleWorld "P_L" "a,,b"),
            Contains e "," = false
              ∧ ∀ a b : List Char, e.data ≠ a ++ ("," : GoString).data ++ b)
        ∧ Join (StrS id "P" "L" "," [] (singleWorld "P_L" "a,,b")) ","
            = Getenv (singleWorld "P_L" "a,,b").env (keyNormalize id "P" "L")
        ∧ (Contains (Getenv (singleWorld "P_L" "a,,b").env (keyNormalize id "P" "L")) ","
              = false →
            StrS id "P" "L" "," [] (singleWorld "P_L" "a,,b")
              = [Getenv (singleWorld "P_L" "a,,b").env (keyNormalize id "P" "L")]))
      ∧ StrS id "P" "L" "," [] (singleWorld "P_L" "a,,b") = ["a", "", "b"]
      ∧ StrS id "P" "L" "," [] (singleWorld "P_L" "abc") = ["abc"] :=
  ⟨StrS_lossless id "P" "L" "," [] (singleWorld "P_L" "a,,b") (by decide) (by decide),
    by decide, by decide⟩

/-! ## keyNormalize with the Latin-1 case table -/

/-- Upper-casing twice is upper-casing once, as soon as the case table sends
the runes above ASCII to fixed points of the upper-casing. -/
theorem toUpperRune_idem_of_table (t : Char → Char)
    (ht : ∀ c : Char, ¬ c.toNat ≤ 0x7F → toUpperRune t (t c) = t c) (c : Char) :
    toUpperRune t (toUpperRune t c) = toUpperRune t c := by
  by_cases h7 : c.toNat ≤ 0x7F
  · by_cases h : 0x61 ≤ c.toNat ∧ c.toNat ≤ 0x7A
    · have hu := toUpperRune_of_lower t c h
      exact toUpperRune_of_ascii_not_lower t _ (by omega) (by omega)
    · rw [toUpperRune_of_ascii_not_lower t c h7 h, toUpperRune_of_ascii_not_lower t c h7 h]
  · have hu : toUpperRune t c = t c := by
      unfold toUpperRune
      rw [if_neg h7]
    rw [hu]
    exact ht c h7

/-- Upper-casing makes no white space, as soon as the case table makes none out
of the runes above ASCII. -/
theorem toUpperRune_space_of_table (t : Char → Char)
    (ht : ∀ c : Char, ¬ c.toNat ≤ 0x7F → isSpace (t c) = true → isSpace c = true) (c : Char)
    (hs : isSpace (toUpperRune t c) = true) : isSpace c = true := by
  by_cases h7 : c.toNat ≤ 0x7F
  · by_cases h : 0x61 ≤ c.toNat ∧ c.toNat ≤ 0x7A
    · exfalso
      have hu := toUpperRune_of_lower t c h
      unfold isSpace at hs
      simp only [hu] at hs
      have hle : c.toNat - 0x20 ≤ 0xFF := by omega
      simp only [hle, if_true, Bool.or_eq_true, decide_eq_true_eq] at hs
      omega
    · rw [toUpperRune_of_ascii_not_lower t c h7 h] at hs
      exact hs
  · have hu : toUpperRune t c = t c := by
      unfold toUpperRune
      rw [if_neg h7]
    rw [hu] at hs
    exact ht c h7 hs

/-- The Latin-1 case table: the rune is left as it is, or sent to one of the
upper-case forms `U+039C`, `U+00C0..U+00DE`, `U+0178`. -/
theorem latin1UpperTable_cases (c : Char) :
    latin1UpperTable c = c
      ∨ (latin1UpperTable c).toNat = 0x39C
      ∨ (0xC0 ≤ (latin1UpperTable c).toNat ∧ (latin1UpperTable c).toNat ≤ 0xDE)
      ∨ (latin1UpperTable c).toNat = 0x178 := by
  unfold latin1UpperTable
  by_cases h1 : c.toNat = 0xB5
  · rw [if_pos h1]
    right; left; rfl
  · rw [if_neg h1]
    by_cases h2 : (0xE0 ≤ c.toNat ∧ c.toNat ≤ 0xF6) ∨ (0xF8 ≤ c.toNat ∧ c.toNat ≤ 0xFE)
    · rw [if_pos h2]
      right; right; left
      have hlo : 0xE0 ≤ c.toNat := by omega
      have hhi : c.toNat ≤ 0xFE := by omega
      generalize c.toNat = n at hlo hhi
      interval_cases n <;> decide
    · rw [if_neg h2]
      by_cases h3 : c.toNat = 0xFF
      · rw [if_pos h3]
        right; right; right; rfl
      · rw [if_neg h3]
        left; rfl

/-- The upper-case forms of the Latin-1 case table are left as they are by the
table. -/
theorem latin1UpperTable_fixed (u : Char)
    (h : u.toNat = 0x39C ∨ (0xC0 ≤ u.toNat ∧ u.toNat ≤ 0xDE) ∨ u.toNat = 0x178) :
    latin1UpperTable u = u := by
  unfold latin1UpperTable
  rw [if_neg (by omega), if_neg (by omega), if_neg (by omega)]

theorem latin1UpperTable_idem (c : Char) :
    toUpperRune latin1UpperTable (toUpperRune latin1UpperTable c)
      = toUpperRune latin1UpperTable c := by
  apply toUpperRune_idem_of_table
  intro c h7
  rcases latin1UpperTable_cases c with h | h
  · rw [h]
    unfold toUpperRune
    rw [if_neg h7]
    exact h
  · have hfix := latin1UpperTable_fixed (latin1UpperTable c) h
    unfold toUpperRune
    rw [if_neg (by omega)]
    exact hfix

theorem latin1UpperTable_space (c : Char)
    (hs : isSpace (toUpperRune latin1UpperTable c) = true) : isSpace c = true := by
  apply toUpperRune_space_of_table latin1UpperTable _ c hs
  intro c _ hs
  rcases latin1UpperTable_cases c with h | h
  · rw [h] at hs
    exact hs
  · exfalso
    unfold isSpace at hs
    rcases h with h | h | h
    · simp [h] at hs
    · have hle : (latin1UpperTable c).toNat ≤ 0xFF := by omega
      simp only [hle, if_true, Bool.or_eq_true, decide_eq_true_eq] at hs
      omega
    · simp [h] at hs

/-- C9, as stated, fails: the normalized key can hold a lower-case letter. With
the case table of Go on Latin-1, `keyNormalize("", "ß")` is "ß": the letter `ß`
is lower-case and has no upper-case form of its own, so `ToUpper` leaves it;
`keyNormalize(" é ", " aßz ")` is "É_AßZ". -/
theorem keyNormalize_lower_counterexample :
    keyNormalize latin1UpperTable "" "ß" = "ß"
      ∧ isLowerLatin1 'ß' = true
      ∧ 'ß' ∈ (keyNormalize latin1UpperTable "" "ß").data
      ∧ keyNormalize latin1UpperTable " é " " aßz " = "É_AßZ"
      ∧ ¬ (∀ c ∈ (keyNormalize latin1UpperTable " é " " aßz ").data,
          isLowerLatin1 c = false) := by
  refine ⟨by decide, by decide, by decide, by decide, ?_⟩
  intro h
  exact absurd (h 'ß' (by decide)) (by decide)

/-- C9, witnesses: `keyNormalize(" p ", " k ") = keyNormalize("p", "k") = "P_K"`,
and with the case table of Go on Latin-1 `keyNormalize(" é ", " aßz ")` is
"É_AßZ", a fixed point. -/
theorem keyNormalize_idempotent_witness :
    (keyNormalize id " p " " k " = keyNormalize id (TrimSpace " p ") (TrimSpace " k ")
        ∧ keyNormalize id "" (keyNormalize id " p " " k ") = keyNormalize id " p " " k "
        ∧ TrimSpace (keyNormalize id " p " " k ") = keyNormalize id " p " " k "
        ∧ ToUpper id (keyNormalize id " p " " k ") = keyNormalize id " p " " k "
        ∧ ∀ c ∈ (keyNormalize id " p " " k ").data, ¬ (0x61 ≤ c.toNat ∧ c.toNat ≤ 0x7A))
      ∧ keyNormalize id " p " " k " = "P_K"
      ∧ keyNormalize id "p" "k" = "P_K"
      ∧ TrimSpace " p " = "p" ∧ TrimSpace " k " = "k"
      ∧ (keyNormalize latin1UpperTable " é " " aßz "
            = keyNormalize latin1UpperTable (TrimSpace " é ") (TrimSpace " aßz ")
        ∧ keyNormalize latin1UpperTable "" (keyNormalize latin1UpperTable " é " " aßz ")
            = keyNormalize latin1UpperTable " é " " aßz "
        ∧ TrimSpace (keyNormalize latin1UpperTable " é " " aßz ")
            = keyNormalize latin1UpperTable " é " " aßz "
        ∧ ToUpper latin1UpperTable (keyNormalize latin1UpperTable " é " " aßz ")
            = keyNormalize latin1UpperTable " é " " aßz "
        ∧ ∀ c ∈ (keyNormalize latin1UpperTable " é " " aßz ").data,
            ¬ (0x61 ≤ c.toNat ∧ c.toNat ≤ 0x7A))
      ∧ keyNormalize latin1UpperTable " é " " aßz " = "É_AßZ" :=
  ⟨keyNormalize_idempotent id toUpperRune_id_idem toUpperRune_id_space " p " " k ",
    rfl, rfl, rfl, rfl,
    keyNormalize_idempotent latin1UpperTable latin1UpperTable_idem latin1UpperTable_space
      " é " " aßz ",
    by decide⟩
